import Mathlib

/-!
Verification of the flowscript workflow orchestrator against its
natural-language specification.

The development shallowly embeds the Python sources:
  * `flowc/ast.py`       — the `Step`, `Notify`, `Workflow` data model;
  * `flowc/semantic.py`  — duplicate/missing-dependency/cycle/banned-command
                           validation and the canonical Kahn topological order;
  * `flowc/ir.py`, `flowc/bytecode.py` — lowering to the JSON bytecode;
  * `flowrun/vm.py`      — the `ParallelVM` dependency scheduler, its worker
                           body, the notifier dispatch and the timeout parser.

Python dictionaries are modelled as insertion-ordered association lists with
last-write-wins insertion (`dictInsert` / `pyDict`); Python `set`s of strings
as deduplicated lists (only membership, size and element removal are used by
the sources, so insertion order is irrelevant); `list.sort()` as insertion
sort over the lexicographic order on strings; exceptions as `Except`;
`None`-able values as `Option`.  The concurrent scheduler is sequentialized:
futures of one `as_completed` batch are processed in submission order, and the
outcome of each `run_cmd_sandbox` call is supplied by an oracle
`sandbox : String → Nat → Bool` giving the result of the attempt-indexed
invocation for a step.
-/

namespace Flowscript

/-! ### Python primitives -/

/-- One Python `dict` insertion: replace the value in place if the key is
present (keeping its position), otherwise append the binding. -/
def dictInsert (k : String) (v : α) : List (String × α) → List (String × α)
  | [] => [(k, v)]
  | (k', v') :: rest =>
      if k' = k then (k, v) :: rest else (k', v') :: dictInsert k v rest

/-- A Python `dict` built from a list of bindings (later bindings overwrite
earlier ones, as in a dict comprehension over a list with repeated keys). -/
def pyDict (l : List (String × α)) : List (String × α) :=
  l.foldl (fun d p => dictInsert p.1 p.2 d) []

/-- Python `d.get(k)` / `d[k]` on an association list. -/
def pyGet (d : List (String × α)) (k : String) : Option α :=
  (d.find? (fun p => p.1 = k)).map (·.2)

/-- Code-point lexicographic `≤` on character lists: Python's `<=` on
strings. -/
def listLeChars : List Char → List Char → Bool
  | [], _ => true
  | _ :: _, [] => false
  | a :: as, b :: bs =>
      if a.toNat < b.toNat then true
      else if a.toNat = b.toNat then listLeChars as bs
      else false

def pyStrLe (a b : String) : Bool :=
  listLeChars a.data b.data

/-- Python `list.sort()` on a list of strings: a correct sort under the
code-point lexicographic order (Python's sort is stable, but on the
duplicate-free name lists the scheduler and analyzer sort, any correct sort
yields the same list). -/
def pySort (l : List String) : List String :=
  l.insertionSort (fun a b => pyStrLe a b = true)

/-- A Python `set` built from a list of strings, as the deduplicated list of
its elements (first occurrences, i.e. insertion order).  The sources use
string sets only for membership, size, removal of one element and as dict
key sets. -/
def pyDedupAux (seen : List String) : List String → List String
  | [] => []
  | x :: xs =>
      if x ∈ seen then pyDedupAux seen xs
      else x :: pyDedupAux (x :: seen) xs

def pyDedup (l : List String) : List String :=
  pyDedupAux [] l

/-- Python truthiness of an optional string: `None` and `""` are falsy. -/
def pyTruthy : Option String → Bool
  | none => false
  | some s => s ≠ ""

/-- Python `f"{x}"` on an optional string: `None` prints as `"None"`. -/
def pyStr : Option String → String
  | none => "None"
  | some s => s

/-! ### Data model (`flowc/ast.py`)

`Workflow.triggers` and `Workflow.env` exist in the source but, as the spec
records, only `name`, `steps` and `notifies` are consumed by the core, so they
are omitted here.  `retries` is kept as `Nat`: the data model declares it a
non-negative integer. -/

structure Step where
  name : String
  run : Option String := none
  timeout : Option String := none
  retries : Nat := 0
  depends_on : List String := []
  on_error : Option String := none
  deriving Repr, DecidableEq

structure Notify where
  name : String
  email : Option String := none
  subject : Option String := none
  body : Option String := none
  deriving Repr, DecidableEq

structure Workflow where
  name : String
  steps : List Step
  notifies : List Notify
  deriving Repr, DecidableEq

/-! ### Semantic analyzer (`flowc/semantic.py`) -/

/-- The distinct `SemanticError` messages raised by `flowc/semantic.py`,
as an inductive so that the error kinds are distinguishable. -/
inductive SemanticError where
  | duplicateStep (name : String)
  | missingDep (step dep : String)
  | cycleDetected
  | bannedPattern (step : String) (patIdx : Nat)
  | cycleInDag
  deriving Repr, DecidableEq

/-- Python's `\s` character class, restricted to ASCII (the commands the
analyzer sees are ASCII strings). -/
def isPyWs (c : Char) : Bool :=
  c = ' ' || c = Char.ofNat 9 || c = Char.ofNat 10 || c = Char.ofNat 13 ||
  c = Char.ofNat 11 || c = Char.ofNat 12

/-- Does `"-rf"` follow here, possibly after further `\s` characters?
(The continuation of `rm\s+-rf` after the first whitespace character.) -/
def wsStarDashRf : List Char → Bool
  | '-' :: 'r' :: 'f' :: _ => true
  | c :: rest => isPyWs c && wsStarDashRf rest
  | [] => false

/-- Does the regex `rm\s+-rf` match at the head of the character list? -/
def rmRfAt : List Char → Bool
  | 'r' :: 'm' :: c :: rest => isPyWs c && wsStarDashRf rest
  | _ => false

/-- `re.search(r"rm\s+-rf", s)`: does `rm\s+-rf` match anywhere? -/
def searchRmRf : List Char → Bool
  | [] => rmRfAt []
  | cs@(_ :: rest) => rmRfAt cs || searchRmRf rest

/-- After a left anchor, does `c` followed by whitespace-or-end start here?
Used for the anchored patterns `(^|;|\s)\|(\s|$)` and `(^|;|\s)&(\s|$)`. -/
def symThenWsEnd (c : Char) : List Char → Bool
  | c' :: rest =>
      c' = c && (match rest with
                 | [] => true
                 | c'' :: _ => isPyWs c'')
  | [] => false

/-- `re.search` for the anchored pattern `(^|;|\s)c(\s|$)`: either the
symbol matches at the start of the string, or it follows a `;` or a
whitespace character. -/
def searchAnchored (c : Char) (cs : List Char) : Bool :=
  symThenWsEnd c cs || go cs
where
  go : List Char → Bool
    | [] => false
    | a :: rest => ((a = ';' || isPyWs a) && symThenWsEnd c rest) || go rest

/-- `re.search(r"(>>)", s)`: is `>>` a substring? -/
def searchAppend : List Char → Bool
  | '>' :: '>' :: _ => true
  | _ :: rest => searchAppend rest
  | [] => false

/-- `re.search(r"`", s)` (backtick, written by code point): does the string
contain a backtick? -/
def searchBacktick (cs : List Char) : Bool :=
  cs.contains (Char.ofNat 96)

/-- `BANNED_PATTERNS` of `flowc/semantic.py`, in source order, each regex
embedded as its dedicated matcher. -/
def BANNED_PATTERNS : List (List Char → Bool) :=
  [searchRmRf, searchAnchored '|', searchAppend, searchAnchored '&',
   searchBacktick]

/-- Does banned pattern number `i` match command string `s`? -/
def matchesBanned (i : Nat) (s : String) : Bool :=
  match BANNED_PATTERNS.get? i with
  | some p => p s.data
  | none => false

/-- `check_duplicates`: walk the steps keeping the set of seen names; raise
on the first repeated name. -/
def check_duplicates_aux (names : List String) :
    List Step → Except SemanticError Unit
  | [] => .ok ()
  | s :: rest =>
      if s.name ∈ names then .error (.duplicateStep s.name)
      else check_duplicates_aux (s.name :: names) rest

def check_duplicates (steps : List Step) : Except SemanticError Unit :=
  check_duplicates_aux [] steps

/-- `check_missing_dependencies`: every name in any `depends_on` must be a
declared step name; raise on the first unresolved one. -/
def check_missing_deps_aux (names : List String) :
    List Step → Except SemanticError Unit
  | [] => .ok ()
  | s :: rest =>
      match s.depends_on.find? (fun d => ¬ names.contains d) with
      | some d => .error (.missingDep s.name d)
      | none => check_missing_deps_aux names rest

def check_missing_dependencies (steps : List Step) :
    Except SemanticError Unit :=
  check_missing_deps_aux (steps.map (·.name)) steps

/-- The inner loop of `check_banned_commands` over `BANNED_PATTERNS`:
the index of the first pattern matching `cmd`, if any. -/
def firstBanned (cmd : String) : Option Nat :=
  (List.range BANNED_PATTERNS.length).find? (fun i => matchesBanned i cmd)

/-- `check_banned_commands`: for each step whose command is truthy
(`if s.run:` — present and non-empty), raise on the first matching banned
pattern. -/
def check_banned_commands : List Step → Except SemanticError Unit
  | [] => .ok ()
  | s :: rest =>
      if pyTruthy s.run then
        match firstBanned (s.run.getD "") with
        | some i => .error (.bannedPattern s.name i)
        | none => check_banned_commands rest
      else check_banned_commands rest

/-! #### Kahn's algorithm (`detect_cycle` and `build_dag`)

`detect_cycle` and `build_dag` are textually the same loop in the source
(only the final length check and error message differ), so both are defined
over a shared `kahn_order`.  The Python state is
  `graph : dict name → set of unresolved deps` (a set: only membership, size
  and removal are used, modelled as a deduplicated list),
  `indeg : dict name → int` and the work `queue`.
The loop pops the head of the sorted queue, appends it to `order`, and for
each node `m` in graph-key order removes the popped name from `graph[m]`,
decrementing `indeg[m]` and enqueueing `m` when it reaches zero; the queue is
re-sorted after every iteration.  `indeg` is an `Int` like a Python int. -/

/-- One emission: remove `n` from every dependency set, decrement the
corresponding indegree, and append nodes whose indegree reaches zero to the
queue (in graph-key order, as the Python `for m in list(graph.keys())`).
`graph` and `indeg` are walked in lockstep; they always share their key
sequence. -/
def kahn_step (n : String) :
    List (String × List String) → List (String × Int) → List String →
      List (String × List String) × List (String × Int) × List String
  | [], ind, q => ([], ind, q)
  | g, [], q => (g, [], q)
  | (m, deps) :: g', (m', d) :: ind', q =>
      if n ∈ deps then
        let d' := d - 1
        let q' := if d' = 0 then q ++ [m] else q
        let rest := kahn_step n g' ind' q'
        ((m, deps.erase n) :: rest.1, (m', d') :: rest.2.1, rest.2.2)
      else
        let rest := kahn_step n g' ind' q
        ((m, deps) :: rest.1, (m', d) :: rest.2.1, rest.2.2)

/-- The `while queue:` loop.  `fuel` is a termination artifact; the callers
pass `steps.length + 1`, which the invariant proofs show is never exhausted
(each iteration emits one distinct step name). -/
def kahn_loop :
    Nat → List (String × List String) → List (String × Int) →
      List String → List String → List String
  | 0, _, _, _, order => order
  | _ + 1, _, _, [], order => order
  | fuel + 1, g, ind, n :: rest, order =>
      let r := kahn_step n g ind rest
      kahn_loop fuel r.1 r.2.1 (pySort r.2.2) (order ++ [n])

/-- `graph = {s.name: set(s.depends_on) for s in steps}`. -/
def kahn_graph (steps : List Step) : List (String × List String) :=
  pyDict (steps.map (fun s => (s.name, pyDedup s.depends_on)))

/-- `indeg = {n: len(graph[n]) for n in graph}`. -/
def kahn_indeg (g : List (String × List String)) : List (String × Int) :=
  g.map (fun p => (p.1, (p.2.length : Int)))

/-- The emitted order of the shared Kahn loop: initial queue = names of
indegree zero, sorted; then iterate. -/
def kahn_order (steps : List Step) : List String :=
  let g := kahn_graph steps
  let ind := kahn_indeg g
  let queue := (ind.filter (fun p => p.2 = 0)).map (·.1)
  kahn_loop (steps.length + 1) g ind (pySort queue) []

/-- `detect_cycle`: raise iff the loop emitted fewer nodes than steps. -/
def detect_cycle (steps : List Step) : Except SemanticError Unit :=
  if (kahn_order steps).length = steps.length then .ok ()
  else .error .cycleDetected

/-- `build_dag`: the same loop, returning the order. -/
def build_dag (steps : List Step) : Except SemanticError (List String) :=
  let order := kahn_order steps
  if order.length = steps.length then .ok order
  else .error .cycleInDag

/-- `semantic_check`: the four validations in source order, then the
canonical order. -/
def semantic_check (w : Workflow) : Except SemanticError (List String) := do
  check_duplicates w.steps
  check_missing_dependencies w.steps
  detect_cycle w.steps
  check_banned_commands w.steps
  build_dag w.steps

/-! ### Bytecode (`flowc/ir.py`, `flowc/bytecode.py`, loader side of
`flowrun/vm.py`)

The bytecode file is a JSON document; `emit_bytecode` writes the dict built
below with `json.dump` and `load_bytecode` reads it back with `json.load`.
Serialization to text and parsing back are the Python `json` library's
round-trip on this value shape, so the document is modelled at the JSON-value
level: `load_bytecode` yields exactly the `Json` value that was emitted. -/

inductive Json where
  | null
  | str (s : String)
  | num (n : Int)
  | arr (elems : List Json)
  | obj (fields : List (String × Json))
  deriving Repr

/-- Encode an optional string field (`None` becomes JSON `null`). -/
def optStrJson : Option String → Json
  | none => .null
  | some s => .str s

/-- `workflow_to_ir` (`flowc/ir.py`): one `RUN` instruction dict per step,
with all seven keys always present. -/
def instr_of_step (s : Step) : List (String × Json) :=
  [("op", .str "RUN"), ("step", .str s.name), ("cmd", optStrJson s.run),
   ("timeout", optStrJson s.timeout), ("retries", .num s.retries),
   ("depends_on", .arr (s.depends_on.map .str)),
   ("on_error", optStrJson s.on_error)]

def workflow_to_ir (w : Workflow) : List Json :=
  w.steps.map (fun s => .obj (instr_of_step s))

/-- The notifier dicts the CLI builds before emitting bytecode
(`do_emit_bytecode` in `cli.py`). -/
def notify_dict (n : Notify) : Json :=
  .obj [("name", .str n.name), ("email", optStrJson n.email),
        ("subject", optStrJson n.subject), ("body", optStrJson n.body)]

/-- `emit_bytecode` (`flowc/bytecode.py`): the emitted document; the
`notifies` key is written only when the list is truthy (non-empty). -/
def emit_bytecode (workflow_name : String) (ir : List Json)
    (notifies : List Json) : Json :=
  .obj ([("workflow", .str workflow_name), ("steps", .arr ir)] ++
        (if notifies.isEmpty then [] else [("notifies", .arr notifies)]))

/-- Python `obj.get(k)` on a JSON object (also used for `.get(k, default)`
by post-processing the result). -/
def jget : Json → String → Option Json
  | .obj fields, k => pyGet fields k
  | _, _ => none

/-- The string carried by a JSON value, if it is one. -/
def asStr? : Json → Option String
  | .str v => some v
  | _ => none

/-- The field list carried by a JSON value, if it is an object. -/
def asObj? : Json → Option (List (String × Json))
  | .obj fields => some fields
  | _ => none

/-- `bytecode.get("steps", [])`: the raw step dicts of the document. -/
def steps_raw (bc : Json) : List (List (String × Json)) :=
  match jget bc "steps" with
  | some (.arr xs) => xs.filterMap asObj?
  | _ => []

/-- An optional-string field of a raw dict (`d.get(k)`): missing keys and
JSON `null` both give `None`.  Analyzer-emitted bytecode only ever holds
strings or nulls in these positions, so other JSON values also decode to
`None`. -/
def rawOptStr (s : List (String × Json)) (k : String) : Option String :=
  (pyGet s k).bind asStr?

/-- One notifier dict decoded into a `Notify` record. -/
def decode_notify (fields : List (String × Json)) : Notify :=
  { name := ((pyGet fields "name").bind asStr?).getD "",
    email := rawOptStr fields "email",
    subject := rawOptStr fields "subject",
    body := rawOptStr fields "body" }

/-- `bytecode.get("notifies", []) or []` decoded into `Notify` records. -/
def notifies_of_bytecode (bc : Json) : List Notify :=
  match jget bc "notifies" with
  | some (.arr xs) => (xs.filterMap asObj?).map decode_notify
  | _ => []

/-- Decoding of one raw step dict into a `Step`, as in `ParallelVM.__init__`:
`name=s.get("step")`, `run=s.get("cmd")`, `timeout=s.get("timeout")`,
`retries=s.get("retries", 0)`, `depends_on=s.get("depends_on", []) or []`,
`on_error=s.get("on_error")`.  Analyzer-emitted bytecode always carries a
string `"step"` name, an integer `"retries"` and a string array
`"depends_on"`; ill-typed documents fall back to the field defaults. -/
def decode_step (s : List (String × Json)) : Step :=
  { name := ((pyGet s "step").bind asStr?).getD "",
    run := rawOptStr s "cmd",
    timeout := rawOptStr s "timeout",
    retries := (match pyGet s "retries" with
                | some (.num n) => n.toNat
                | _ => 0),
    depends_on := (match pyGet s "depends_on" with
                   | some (.arr xs) => xs.filterMap asStr?
                   | _ => []),
    on_error := rawOptStr s "on_error" }

/-- The `step_objs` list a `ParallelVM` builds from a bytecode document. -/
def step_objs (bc : Json) : List Step :=
  (steps_raw bc).map decode_step

/-! #### `ParallelVM._build_graph` -/

/-- `self.steps_set = set(s.name for s in self.step_objs)` (as a
deduplicated list; the set is only used for membership and to key the two
graph dicts, whose entries are compared as maps). -/
def vm_steps_set (objs : List Step) : List String :=
  pyDedup (objs.map (·.name))

/-- The inner edge loop of `_build_graph`: for each dependency of each step,
fail on a dependency outside the step set, otherwise append the step to
`adj[dep]` and increment `indeg[name]`. -/
def vm_add_edges (names : List String) :
    List Step → List (String × List String) → List (String × Int) →
      Except SemanticError (List (String × List String) × List (String × Int))
  | [], adj, ind => .ok (adj, ind)
  | s :: rest, adj, ind =>
      match go s.name s.depends_on adj ind with
      | .error e => .error e
      | .ok (adj', ind') => vm_add_edges names rest adj' ind'
where
  go (name : String) : List String → List (String × List String) →
      List (String × Int) →
      Except SemanticError (List (String × List String) × List (String × Int))
    | [], adj, ind => .ok (adj, ind)
    | dep :: deps, adj, ind =>
        if dep ∈ names then
          go name deps
            (adj.map (fun p => if p.1 = dep then (p.1, p.2 ++ [name]) else p))
            (ind.map (fun p => if p.1 = name then (p.1, p.2 + 1) else p))
        else
          .error (.missingDep name dep)

/-- `_build_graph`: zeroed `adj`/`indeg` dicts keyed by the step set, then
the edge loop; raises `SemanticError` on an unknown dependency. -/
def vm_build_graph (objs : List Step) :
    Except SemanticError (List (String × List String) × List (String × Int)) :=
  let names := vm_steps_set objs
  vm_add_edges names objs (names.map (fun n => (n, ([] : List String))))
    (names.map (fun n => (n, (0 : Int))))

/-! ### The runtime timeout parser (`ParallelVM._parse_timeout`)

`int(str(x).rstrip("s"))` wrapped in `try/except`.  Python's `int(str)`
accepts surrounding whitespace, one optional sign, and ASCII digits with
single underscores between digits; it is modelled by `pyInt?` below
(restricted to ASCII, which is all that reaches the parser). -/

/-- Python `str.rstrip("s")`: drop every trailing `'s'`. -/
def rstripS (cs : List Char) : List Char :=
  (cs.reverse.dropWhile (· = 's')).reverse

/-- Digit-and-underscore tail of a Python integer literal: after a digit,
each further digit may be preceded by a single underscore. -/
def pyDigitsTail (acc : Nat) : List Char → Option Nat
  | [] => some acc
  | c :: rest =>
      if c = '_' then
        match rest with
        | c2 :: rest2 =>
            if c2.isDigit then pyDigitsTail (acc * 10 + (c2.toNat - 48)) rest2
            else none
        | [] => none
      else if c.isDigit then pyDigitsTail (acc * 10 + (c.toNat - 48)) rest
      else none

/-- The unsigned part: at least one digit, then `pyDigitsTail`. -/
def pyNat? : List Char → Option Nat
  | c :: rest => if c.isDigit then pyDigitsTail (c.toNat - 48) rest else none
  | [] => none

/-- Python `int(s)` on an ASCII string: strip whitespace, optional single
sign, digits with single underscores between them; `none` models
`ValueError`. -/
def pyInt? (cs : List Char) : Option Int :=
  let core := (cs.dropWhile isPyWs).reverse.dropWhile isPyWs |>.reverse
  match core with
  | [] => none
  | c :: rest =>
      if c = '+' then (pyNat? rest).map Int.ofNat
      else if c = '-' then (pyNat? rest).map (fun n => -(n : Int))
      else (pyNat? (c :: rest)).map Int.ofNat

/-- `ParallelVM._parse_timeout` (identical in `ParallelRuntime`): falsy
input (`None` or `""`) gives `None`; otherwise `int(x.rstrip("s"))`, with
any exception swallowed to `None`. -/
def parse_timeout (timeout_raw : Option String) : Option Int :=
  if ¬ pyTruthy timeout_raw then none
  else pyInt? (rstripS (timeout_raw.getD "").data)

/-! ### The scheduler (`ParallelVM`, `flowrun/vm.py`)

The scheduler state mirrors the fields of `ParallelVM` (Python sets are
lists, only ever extended with fresh elements): `completed`, `failed`, the
names held by `running_futures` in submission order, the two graph dicts,
the `cancelled` abort flag, plus the two observable traces — the status
callback invocations and the lines appended to `notifications.log`.

Two sequentialization choices stand in for thread scheduling: within one
`while` iteration, the futures snapshot taken by `as_completed` completes in
submission order; and each worker body runs atomically when its future is
consumed.  The outcome of the `run_cmd_sandbox` call for attempt `i` of step
`n` is the oracle value `sandbox n i`; the external `cancel_event` is a
one-shot flag modelled as a constant `Bool`. -/

structure VMState where
  completed : List String
  failed : List String
  running : List String
  adj : List (String × List String)
  indeg : List (String × Int)
  statuses : List (String × String)
  log : List String
  cancelled : Bool
  deriving Repr, DecidableEq

structure VMCfg where
  step_objs : List Step
  notifies : List Notify
  sandbox : String → Nat → Bool
  cancel_event : Bool
  timestamp : String

/-- `self.name_to_raw = {s.get("step"): s for s in self.steps_raw}`.  The
raw dict is identified with its decoded `Step`: the scheduler reads exactly
the fields (`cmd`, `timeout`, `retries`, `on_error`) that decoding
preserves. -/
def name_to_raw (objs : List Step) : List (String × Step) :=
  pyDict (objs.map (fun s => (s.name, s)))

/-- `self.notify_map = {n.get("name"): n for n in self.notifies_raw}`. -/
def mk_notify_map (notifies : List Notify) : List (String × Notify) :=
  pyDict (notifies.map (fun n => (n.name, n)))

/-- The characters of the substitution token `${failed_step}`. -/
def tokenChars : List Char := "${failed_step}".data

/-- `body.replace("${failed_step}", fs)`: replace every (non-overlapping,
left-to-right) occurrence of the 14-character token.  Structural recursion
on a fuel that bounds the list length (the wrapper passes the length
itself), so that concrete instances evaluate definitionally. -/
def substGo (fs : String) : Nat → List Char → List Char
  | 0, cs => cs
  | fuel + 1, cs =>
      match cs with
      | [] => []
      | c :: rest =>
          if tokenChars.isPrefixOf (c :: rest) then
            fs.data ++ substGo fs fuel ((c :: rest).drop 14)
          else c :: substGo fs fuel rest

def substFailedStep (fs : String) (cs : List Char) : List Char :=
  substGo fs cs.length cs

/-- `ParallelVM._emit_notify`: the single line appended to
`notifications.log` (including its newline).  A known handler name yields
the `NOTIFY` line — with `${failed_step}` substituted into the body when
both the failing step name and the body are truthy — an unknown one the
`NOTIFY-MISSING` line.  `None` fields print as `"None"`, as in a Python
f-string. -/
def emit_notify (notify_map : List (String × Notify)) (ts : String)
    (notify_name : String) (failed_step : Option String) : String :=
  match pyGet notify_map notify_name with
  | some n =>
      let body := if pyTruthy failed_step && pyTruthy n.body then
                    some (String.mk
                      (substFailedStep (failed_step.getD "") (n.body.getD "").data))
                  else n.body
      "[" ++ ts ++ "] NOTIFY " ++ notify_name ++ " -> email: " ++
        pyStr n.email ++ " subject: " ++ pyStr n.subject ++ " body: " ++
        pyStr body ++ "\n"
  | none =>
      "[" ++ ts ++ "] NOTIFY-MISSING " ++ notify_name ++ " for failed_step=" ++
        pyStr failed_step ++ "\n"

/-- The retry loop of `ParallelVM._execute_step`: `remaining` attempts are
left and the next sandbox invocation is number `attempt`.  Each attempt
first re-checks cancel/abort.  Returns the step result and the number of
sandbox invocations performed. -/
def exec_attempts (sandbox : String → Nat → Bool) (cancel : Bool)
    (name : String) : Nat → Nat → Bool × Nat
  | 0, _ => (false, 0)
  | remaining + 1, attempt =>
      if cancel then (false, 0)
      else if sandbox name attempt then (true, 1)
      else
        let r := exec_attempts sandbox cancel name remaining (attempt + 1)
        (r.1, r.2 + 1)

/-- `ParallelVM._execute_step` for step `step_name`: look up the raw record
(`retries = raw.get("retries", 0) or 0`), report `running`, run up to
`retries + 1` attempts, report the terminal status.  Returns the result,
the sandbox invocation count and the emitted status events. -/
def vm_execute_step (cfg : VMCfg) (aborted : Bool) (step_name : String) :
    Bool × Nat × List (String × String) :=
  let retries :=
    ((pyGet (name_to_raw cfg.step_objs) step_name).map (·.retries)).getD 0
  let r := exec_attempts cfg.sandbox (cfg.cancel_event || aborted) step_name
    (retries + 1) 0
  (r.1, r.2, [(step_name, "running"),
              (step_name, if r.1 then "succeeded" else "failed")])

/-- The successor loop shared by the success branch and the
failure-with-handler branch: for each neighbour in `adj` order, decrement
its unresolved counter; those that reach zero are collected (reporting
`queued`). -/
def decrement_succs :
    List String → List (String × Int) →
      List (String × Int) × List String × List (String × String)
  | [], ind => (ind, [], [])
  | neigh :: rest, ind =>
      let d := ((pyGet ind neigh).getD 0) - 1
      let ind' := ind.map (fun p => if p.1 = neigh then (p.1, p.2 - 1) else p)
      let r := decrement_succs rest ind'
      if d = 0 then (r.1, neigh :: r.2.1, (neigh, "queued") :: r.2.2)
      else r

/-- `for nr in sorted(newly_ready): ...` — submit each newly ready step not
already terminal, appending it to the running list. -/
def submit_new (completed failed : List String) (newly running : List String) :
    List String :=
  (pySort newly).foldl
    (fun run nr => if nr ∈ completed ∨ nr ∈ failed then run else run ++ [nr])
    running

/-- Control outcome of consuming one completion: continue the loop, or
return from `execute` immediately with the given result. -/
inductive LoopCtl where
  | next (st : VMState)
  | halt (result : Bool) (st : VMState)
  deriving Repr

/-- The completion-consumption block of `ParallelVM.execute` (the body of
`for fut in done_iter:` after `fut.result()` is known): on success mark
completed and unlock successors; on failure mark failed, then either emit
the notification and unlock successors exactly as in the success branch
(truthy `on_error`), or set the abort flag, drop all outstanding futures and
return `False`. -/
def handle_completion (cfg : VMCfg) (st : VMState) (step : String)
    (ok : Bool) : LoopCtl :=
  if ok then
    let st1 := { st with completed := st.completed ++ [step] }
    let r := decrement_succs ((pyGet st1.adj step).getD []) st1.indeg
    .next { st1 with
            indeg := r.1, statuses := st1.statuses ++ r.2.2,
            running := submit_new st1.completed st1.failed r.2.1 st1.running }
  else
    let st1 := { st with failed := st.failed ++ [step] }
    let on_err := (pyGet (name_to_raw cfg.step_objs) step).bind (·.on_error)
    if pyTruthy on_err then
      let st2 := { st1 with log := st1.log ++
        [emit_notify (mk_notify_map cfg.notifies) cfg.timestamp
          (on_err.getD "") (some step)] }
      let r := decrement_succs ((pyGet st2.adj step).getD []) st2.indeg
      .next { st2 with
              indeg := r.1, statuses := st2.statuses ++ r.2.2,
              running := submit_new st2.completed st2.failed r.2.1 st2.running }
    else
      .halt false { st1 with cancelled := true, running := [] }

/-- Consume one `as_completed` snapshot in submission order.  The worker
body runs when its future is consumed; its status events are appended, then
the completion is handled.  Newly submitted futures accumulate in
`st.running` (the snapshot was taken off it by the caller). -/
def process_batch (cfg : VMCfg) : List String → VMState → LoopCtl
  | [], st => .next st
  | step :: rest, st =>
      let r := vm_execute_step cfg st.cancelled step
      let st1 := { st with statuses := st.statuses ++ r.2.2 }
      match handle_completion cfg st1 step r.1 with
      | .halt b stH => .halt b stH
      | .next st2 => process_batch cfg rest st2

/-- The `while self.running_futures:` loop: snapshot the outstanding
futures, consume the batch, then honour the external cancel event (or the
abort flag) by dropping all outstanding futures and returning `False`.
When no futures remain, return `True` iff no step failed.  `fuel` is a
termination artifact (`execute` passes enough for every step to be
submitted once). -/
def vm_loop (cfg : VMCfg) : Nat → VMState → Bool × VMState
  | 0, st => (false, st)
  | fuel + 1, st =>
      match st.running with
      | [] => (st.failed.isEmpty, st)
      | batch =>
          match process_batch cfg batch { st with running := [] } with
          | .halt b stH => (b, stH)
          | .next st' =>
              if cfg.cancel_event ∨ st'.cancelled then
                (false, { st' with running := [] })
              else vm_loop cfg fuel st'

/-- `ParallelVM.execute`: build the graph (returning `False` on a
`SemanticError`), seed and report the initial ready set, fail when a
non-empty step set has no ready step, submit the initial steps in sorted
order and run the main loop. -/
def vm_execute (cfg : VMCfg) : Bool × VMState :=
  match vm_build_graph cfg.step_objs with
  | .error _ =>
      (false, { completed := [], failed := [], running := [], adj := [],
                indeg := [], statuses := [], log := [], cancelled := false })
  | .ok (adj, ind) =>
      let ready := (ind.filter (fun p => p.2 = 0)).map (·.1)
      let st0 : VMState :=
        { completed := [], failed := [], running := [], adj := adj,
          indeg := ind, statuses := ready.map (fun r => (r, "queued")),
          log := [], cancelled := false }
      if ready.isEmpty ∧ ¬ (vm_steps_set cfg.step_objs).isEmpty then
        (false, st0)
      else
        vm_loop cfg (cfg.step_objs.length + 1)
          { st0 with running := pySort ready }

/-! ### Spec-side vocabulary

Definitions in this section render phrases of the specification (not source
code) so that the claims can be stated: topological orders, the ready set of
Kahn's algorithm, and the `<digits>s` timeout shape. -/

/-- The names of a step list, in declaration order. -/
def stepNames (steps : List Step) : List String :=
  steps.map (·.name)

/-- The declared dependency list of the step named `n` (empty for an unknown
name; names are unique in the workflows quantified over). -/
def depsOf (steps : List Step) (n : String) : List String :=
  ((steps.find? (fun s => s.name = n)).map (·.depends_on)).getD []

/-- `L` is a topological order of the dependency graph: a duplicate-free
enumeration of the step names in which every step's dependencies appear
before it. -/
def IsTopoOrder (steps : List Step) (L : List String) : Prop :=
  L.Nodup ∧ (∀ n, n ∈ L ↔ n ∈ stepNames steps) ∧
    ∀ s ∈ steps, ∀ d ∈ s.depends_on, L.indexOf d < L.indexOf s.name

/-- The spec's acyclicity of the dependency graph: some topological order
exists. -/
def Acyclic (steps : List Step) : Prop :=
  ∃ L, IsTopoOrder steps L

/-- The ready set after the names in `done` have been emitted: steps not yet
emitted all of whose dependencies are emitted (the spec's "nodes whose
unresolved-dependency count is zero"), in declaration order. -/
def readyNames (steps : List Step) (done : List String) : List String :=
  (stepNames steps).filter
    (fun n => !done.contains n && (depsOf steps n).all (done.contains ·))

/-- The numeric value of a digit string. -/
def digitsVal (ds : List Char) : Nat :=
  ds.foldl (fun a c => a * 10 + (c.toNat - 48)) 0

/-- The spec's "digit string followed by zero or more trailing `s`
characters" shape for a timeout value. -/
def TimeoutDigitForm (s : String) : Prop :=
  ∃ ds k, ds ≠ [] ∧ (∀ c ∈ ds, c.isDigit) ∧
    s.data = ds ++ List.replicate k 's'

/-- The state of the Kahn loop's `graph` dict after the names in `done`
have been emitted: each step's deduplicated dependency set minus the
emitted names.  (`kahn_graph steps = graphRem steps []` once duplicate
names are excluded.) -/
def graphRem (steps : List Step) (done : List String) :
    List (String × List String) :=
  steps.map (fun s =>
    (s.name, (pyDedup s.depends_on).filter (fun d => !done.contains d)))

/-- The canonical-order specification: at every position `i`, the emitted
name is a ready node (all dependencies already emitted, itself not yet
emitted) and is lexicographically least among the ready nodes. -/
def OrdSpec (steps : List Step) (done : List String) : Prop :=
  ∀ i (hi : i < done.length),
    done.get ⟨i, hi⟩ ∈ readyNames steps (done.take i) ∧
    ∀ m ∈ readyNames steps (done.take i),
      pyStrLe (done.get ⟨i, hi⟩) m = true

/-! ### Concrete run configurations for the end-to-end scenarios -/

/-- Handled failure (spec §8 scenario 5): `a` always fails and names the
declared notifier `notify_ops`; `b` depends on `a` and succeeds. -/
def cfgHandled : VMCfg :=
  { step_objs :=
      [{ name := "a", run := some "false", on_error := some "notify_ops" },
       { name := "b", run := some "true", depends_on := ["a"] }],
    notifies := [{ name := "notify_ops", email := some "ops@example.com",
                   body := some "step ${failed_step} failed" }],
    sandbox := fun n _ => n = "b", cancel_event := false, timestamp := "T" }

/-- Unhandled failure (spec §8 scenario 6): `a` always fails with no
handler; `b` depends on `a`. -/
def cfgUnhandled : VMCfg :=
  { step_objs := [{ name := "a", run := some "false" },
                  { name := "b", run := some "true", depends_on := ["a"] }],
    notifies := [], sandbox := fun n _ => n = "b", cancel_event := false,
    timestamp := "T" }

/-- An all-succeeding two-step run. -/
def cfgLinear : VMCfg :=
  { step_objs := [{ name := "a", run := some "true" },
                  { name := "b", run := some "true", depends_on := ["a"] }],
    notifies := [], sandbox := fun _ _ => true, cancel_event := false,
    timestamp := "T" }

/-- An aborted run: the single step fails with no handler. -/
def cfgAborted : VMCfg :=
  { step_objs := [{ name := "a", run := some "false" }],
    notifies := [], sandbox := fun _ _ => false, cancel_event := false,
    timestamp := "T" }

/-- A cancelled run: the external cancel event is set from the start; the
step carries an `on_error` handler so the failure its worker reports under
cancellation does not itself abort, and the cancel check returns. -/
def cfgCancelled : VMCfg :=
  { step_objs := [{ name := "c", run := some "true", on_error := some "h" }],
    notifies := [], sandbox := fun _ _ => true, cancel_event := true,
    timestamp := "T" }

/-- A single always-failing step with `retries = 2`, for the retry-count
witness. -/
def cfgRetry : VMCfg :=
  { step_objs := [{ name := "r", run := some "false", retries := 2 }],
    notifies := [], sandbox := fun _ _ => false, cancel_event := false,
    timestamp := "T" }

/-- A workflow with a banned command (`rm -rf /tmp/x`). -/
def wfBanned : Workflow :=
  { name := "w", notifies := [],
    steps := [{ name := "a", run := some "rm -rf /tmp/x" }] }

/-- A workflow containing both a duplicate step name and a banned command
in a later step. -/
def wfDupAndBanned : Workflow :=
  { name := "w", notifies := [],
    steps := [{ name := "a", run := some "true" },
              { name := "a", run := some "true" },
              { name := "z", run := some "rm -rf /tmp/x" }] }

/-- A three-step workflow exercising the round trip and the canonical
order. -/
def wfRound : Workflow :=
  { name := "w", notifies := [{ name := "n", body := some "b" }],
    steps := [{ name := "c", run := some "true", timeout := some "5s" },
              { name := "a", run := some "true", retries := 2 },
              { name := "b", run := some "true", depends_on := ["a"],
                on_error := some "n" }] }

/-! ## Theorems -/

/-- If every attempt from `a` on fails and no cancel is pending, the retry
loop performs all `k` remaining sandbox invocations and fails. -/
lemma exec_attempts_all_fail (sandbox : String → Nat → Bool) (n : String) :
    ∀ (k a : Nat), (∀ i, i < k → sandbox n (a + i) = false) →
      exec_attempts sandbox false n k a = (false, k)
  | 0, _, _ => rfl
  | k + 1, a, h => by
      have h0 : sandbox n a = false := by simpa using h 0 (Nat.succ_pos k)
      have ih := exec_attempts_all_fail sandbox n k (a + 1) (fun i hi => by
        simpa [Nat.add_assoc, Nat.add_comm 1 i] using h (i + 1)
          (Nat.succ_lt_succ hi))
      simp [exec_attempts, h0, ih]

/-- If attempt `a + j` is the first success, the retry loop stops right
after it, having made `j + 1` sandbox invocations. -/
lemma exec_attempts_first_success (sandbox : String → Nat → Bool)
    (n : String) :
    ∀ (j k a : Nat), j < k → (∀ i, i < j → sandbox n (a + i) = false) →
      sandbox n (a + j) = true →
      exec_attempts sandbox false n k a = (true, j + 1)
  | 0, k, a, hjk, _, hsucc => by
      obtain ⟨k', rfl⟩ : ∃ k', k = k' + 1 :=
        ⟨k - 1, by omega⟩
      simp only [Nat.add_zero] at hsucc
      simp [exec_attempts, hsucc]
  | j + 1, k, a, hjk, hfail, hsucc => by
      obtain ⟨k', rfl⟩ : ∃ k', k = k' + 1 := ⟨k - 1, by omega⟩
      have h0 : sandbox n a = false := by simpa using hfail 0 (Nat.succ_pos j)
      have ih := exec_attempts_first_success sandbox n j k' (a + 1)
        (by omega)
        (fun i hi => by
          simpa [Nat.add_assoc, Nat.add_comm 1 i] using hfail (i + 1)
            (Nat.succ_lt_succ hi))
        (by simpa [Nat.add_assoc, Nat.add_comm 1 j] using hsucc)
      simp [exec_attempts, h0, ih]

/-- C4: for a step with `retries = k`, in a run with neither cancellation
nor abort pending, the worker body invokes the command sandbox exactly
`k + 1` times and reports failure when every attempt fails; and when some
attempt succeeds first at index `j`, it returns success immediately after
that attempt, having invoked the sandbox exactly `j + 1 ≤ k + 1` times. -/
theorem c4_worker_retry_budget (cfg : VMCfg) (s : Step)
    (hs : pyGet (name_to_raw cfg.step_objs) s.name = some s)
    (hnc : cfg.cancel_event = false) :
    ((∀ i, i < s.retries + 1 → cfg.sandbox s.name i = false) →
      vm_execute_step cfg false s.name =
        (false, s.retries + 1, [(s.name, "running"), (s.name, "failed")])) ∧
    (∀ j, j < s.retries + 1 → (∀ i, i < j → cfg.sandbox s.name i = false) →
      cfg.sandbox s.name j = true →
      vm_execute_step cfg false s.name =
        (true, j + 1, [(s.name, "running"), (s.name, "succeeded")])) := by
  constructor
  · intro hall
    have := exec_attempts_all_fail cfg.sandbox s.name (s.retries + 1) 0
      (fun i hi => by simpa using hall i hi)
    simp [vm_execute_step, hs, hnc, this]
  · intro j hj hfail hsucc
    have := exec_attempts_first_success cfg.sandbox s.name j (s.retries + 1) 0
      hj (fun i hi => by simpa using hfail i hi) (by simpa using hsucc)
    simp [vm_execute_step, hs, hnc, this]

/-- Witness for C4: the step `r` of `cfgRetry` has `retries = 2` and an
always-failing command; the worker invokes the sandbox exactly 3 times. -/
theorem c4_worker_retry_budget_witness :
    vm_execute_step cfgRetry false "r" =
      (false, 3, [("r", "running"), ("r", "failed")]) := by
  have h := c4_worker_retry_budget cfgRetry
    { name := "r", run := some "false", retries := 2 } (by rfl) (by rfl)
  exact h.1 (fun i _ => rfl)

/-- A cons headed by a character different from the pattern's head is not
prefixed by the pattern. -/
lemma isPrefixOf_cons_ne {c a : Char} (hc : c ≠ a) (t rest : List Char) :
    (a :: t).isPrefixOf (c :: rest) = false := by
  simp only [List.isPrefixOf, Bool.and_eq_false_iff]
  left
  exact beq_eq_false_iff_ne.mpr (Ne.symm hc)

/-- Any list is an `isPrefixOf` of itself extended on the right. -/
lemma isPrefixOf_append (l₁ l₂ : List Char) :
    l₁.isPrefixOf (l₁ ++ l₂) = true := by
  induction l₁ with
  | nil => simp [List.isPrefixOf]
  | cons a t ih => simp [List.isPrefixOf, ih]

/-- The replacement loop is insensitive to its fuel once the fuel covers
the list length. -/
lemma substGo_fuel_irrel (fs : String) :
    ∀ f₁ f₂ l, l.length ≤ f₁ → l.length ≤ f₂ →
      substGo fs f₁ l = substGo fs f₂ l := by
  intro f₁
  induction f₁ with
  | zero =>
      intro f₂ l h1 _
      have hl : l = [] := List.eq_nil_of_length_eq_zero (Nat.le_zero.mp h1)
      subst hl
      cases f₂ <;> rfl
  | succ f₁ ih =>
      intro f₂ l h1 h2
      match f₂, l with
      | 0, l =>
          have hl : l = [] :=
            List.eq_nil_of_length_eq_zero (Nat.le_zero.mp h2)
          subst hl
          rfl
      | f₂ + 1, [] => rfl
      | f₂ + 1, c :: rest =>
          simp only [substGo]
          by_cases hp : tokenChars.isPrefixOf (c :: rest) = true
          · simp only [hp, if_true]
            have hlen : ((c :: rest).drop 14).length = (c :: rest).length - 14 :=
              List.length_drop 14 (c :: rest)
            refine congrArg (fs.data ++ ·) (ih f₂ _ ?_ ?_) <;>
              (rw [hlen]; simp only [List.length_cons] at h1 h2 ⊢; omega)
          · simp only [hp, if_false]
            refine congrArg (c :: ·) (ih f₂ rest ?_ ?_) <;>
              (simp only [List.length_cons] at h1 h2; omega)

/-- `str.replace` leaves a `'$'`-free string unchanged (any fuel). -/
lemma substGo_no_dollar (fs : String) :
    ∀ fuel l, (∀ c ∈ l, c ≠ '$') → substGo fs fuel l = l := by
  intro fuel
  induction fuel with
  | zero => intro l _; rfl
  | succ fuel ih =>
      intro l h
      match l with
      | [] => rfl
      | c :: rest =>
          have hc : c ≠ '$' := h c (by simp)
          have ht : tokenChars = '$' :: "{failed_step}".data := rfl
          simp only [substGo, ht, isPrefixOf_cons_ne hc, Bool.false_eq_true,
            if_false]
          exact congrArg (c :: ·) (ih rest (fun x hx => h x (by simp [hx])))

/-- `str.replace` leaves a `'$'`-free string unchanged. -/
lemma substFailedStep_no_dollar (fs : String) (l : List Char)
    (h : ∀ c ∈ l, c ≠ '$') : substFailedStep fs l = l :=
  substGo_no_dollar fs l.length l h

/-- Substitution in a context: with `'$'`-free text around it, the token is
replaced by the failing step's name. -/
lemma substGo_ctx (fs : String) :
    ∀ pre fuel post,
      (pre ++ tokenChars ++ post).length ≤ fuel →
      (∀ c ∈ pre, c ≠ '$') → (∀ c ∈ post, c ≠ '$') →
      substGo fs fuel (pre ++ tokenChars ++ post) =
        pre ++ fs.data ++ post := by
  intro pre
  induction pre with
  | nil =>
      intro fuel post hlen _ hpost
      have h14 : tokenChars.length = 14 := rfl
      simp only [List.nil_append, List.length_append, h14] at hlen
      obtain ⟨f, rfl⟩ : ∃ f, fuel = f + 1 := ⟨fuel - 1, by omega⟩
      have hpre : tokenChars.isPrefixOf (tokenChars ++ post) = true :=
        isPrefixOf_append _ _
      have hdrop : (tokenChars ++ post).drop 14 = post := by
        rw [← h14, List.drop_left]
      have hred : substGo fs (f + 1) (tokenChars ++ post) =
          if tokenChars.isPrefixOf (tokenChars ++ post) then
            fs.data ++ substGo fs f ((tokenChars ++ post).drop 14)
          else '$' :: substGo fs f ("{failed_step}".data ++ post) := rfl
      simp only [List.nil_append]
      rw [hred, hpre, hdrop, substGo_no_dollar fs f post hpost]
      simp
  | cons c p ih =>
      intro fuel post hlen hpre hpost
      have hc : c ≠ '$' := hpre c (by simp)
      obtain ⟨f, rfl⟩ : ∃ f, fuel = f + 1 :=
        ⟨fuel - 1, by simp [List.length_append] at hlen; omega⟩
      have ht : tokenChars = '$' :: "{failed_step}".data := rfl
      have hred : substGo fs (f + 1) (c :: (p ++ tokenChars ++ post)) =
          if tokenChars.isPrefixOf (c :: (p ++ tokenChars ++ post)) then
            fs.data ++ substGo fs f ((c :: (p ++ tokenChars ++ post)).drop 14)
          else c :: substGo fs f (p ++ tokenChars ++ post) := rfl
      simp only [List.cons_append]
      rw [hred, ht, isPrefixOf_cons_ne hc]
      simp only [Bool.false_eq_true, if_false]
      refine congrArg (c :: ·) (ih f post ?_ (fun x hx => hpre x (by simp [hx]))
        hpost)
      simp only [List.length_append, List.length_cons] at hlen ⊢
      omega

/-- C8: notifier dispatch appends exactly one line to the log.  For a known
handler the line carries the timestamp, notifier name, email, subject and
the body with `${failed_step}` replaced by the failing step's name; for an
unknown handler it is the `NOTIFY-MISSING` record.  The final conjunct
states the substitution semantics: in a body `pre ++ "${failed_step}" ++
post` with `'$'`-free context, the token becomes the failing step's
name. -/
theorem c8_notify_dispatch (notify_map : List (String × Notify))
    (ts nm fs : String) (log : List String) :
    ((log ++ [emit_notify notify_map ts nm (some fs)]).length =
      log.length + 1) ∧
    (∀ n b, pyGet notify_map nm = some n → n.body = some b → fs ≠ "" →
      b ≠ "" →
      emit_notify notify_map ts nm (some fs) =
        "[" ++ ts ++ "] NOTIFY " ++ nm ++ " -> email: " ++ pyStr n.email ++
          " subject: " ++ pyStr n.subject ++ " body: " ++
          String.mk (substFailedStep fs b.data) ++ "\n") ∧
    (pyGet notify_map nm = none →
      emit_notify notify_map ts nm (some fs) =
        "[" ++ ts ++ "] NOTIFY-MISSING " ++ nm ++ " for failed_step=" ++
          fs ++ "\n") ∧
    (∀ pre post : List Char, (∀ c ∈ pre, c ≠ '$') → (∀ c ∈ post, c ≠ '$') →
      substFailedStep fs (pre ++ "${failed_step}".data ++ post) =
        pre ++ fs.data ++ post) := by
  refine ⟨by simp, ?_, ?_, ?_⟩
  · intro n b hn hb hfs hbne
    have htr : pyTruthy (some fs) = true := by simp [pyTruthy, hfs]
    have htb : pyTruthy (some b) = true := by simp [pyTruthy, hbne]
    simp [emit_notify, hn, htr, htb, hb, pyStr]
  · intro hn
    simp [emit_notify, hn, pyStr]
  · intro pre post hpre hpost
    have e : "${failed_step}".data = tokenChars := rfl
    rw [substFailedStep, e]
    exact substGo_ctx fs pre _ post le_rfl hpre hpost

/-- Witness for C8: dispatching `notify_ops` for failed step `a` against the
`cfgHandled` notifier map yields the expected substituted line, and the
missing-handler case yields the `NOTIFY-MISSING` record. -/
theorem c8_notify_dispatch_witness :
    emit_notify (mk_notify_map cfgHandled.notifies) "T" "notify_ops"
        (some "a") =
      "[T] NOTIFY notify_ops -> email: ops@example.com subject: None " ++
        "body: step a failed\n" ∧
    emit_notify (mk_notify_map cfgHandled.notifies) "T" "nope" (some "a") =
      "[T] NOTIFY-MISSING nope for failed_step=a\n" := by
  constructor
  · have h := (c8_notify_dispatch (mk_notify_map cfgHandled.notifies) "T"
      "notify_ops" "a" []).2.1
      { name := "notify_ops", email := some "ops@example.com",
        body := some "step ${failed_step} failed" }
      "step ${failed_step} failed" (by rfl) (by rfl)
      (by decide) (by decide)
    rw [h]
    decide
  · have h := (c8_notify_dispatch (mk_notify_map cfgHandled.notifies) "T"
      "nope" "a" []).2.2.1 (by rfl)
    rw [h]
    decide

/-- A decimal digit is not one of Python's whitespace characters. -/
lemma isDigit_not_ws {c : Char} (h : c.isDigit = true) : isPyWs c = false := by
  by_contra hne
  have hw : isPyWs c = true := by simpa using hne
  simp only [isPyWs, Bool.or_eq_true, decide_eq_true_eq] at hw
  rcases hw with ((((h1 | h1) | h1) | h1) | h1) | h1 <;>
    (subst h1; exact absurd h (by decide))

/-- A decimal digit is not `'s'`, `'_'`, `'+'` or `'-'`. -/
lemma isDigit_ne {c : Char} (h : c.isDigit = true) :
    c ≠ 's' ∧ c ≠ '_' ∧ c ≠ '+' ∧ c ≠ '-' := by
  refine ⟨?_, ?_, ?_, ?_⟩ <;> (intro e; subst e; simp at h)

/-- `dropWhile` over a list none of whose elements satisfies the predicate
is the identity. -/
lemma dropWhile_eq_self_of_none {p : Char → Bool} {l : List Char}
    (h : ∀ c ∈ l, p c = false) : l.dropWhile p = l := by
  cases l with
  | nil => rfl
  | cons c rest => simp [List.dropWhile_cons, h c (by simp)]

/-- Stripping trailing `'s'` characters recovers a nonempty digit string. -/
lemma rstripS_digits (ds : List Char) (k : Nat) (_hne : ds ≠ [])
    (hd : ∀ c ∈ ds, c.isDigit = true) :
    rstripS (ds ++ List.replicate k 's') = ds := by
  have hrep : ∀ (l : List Char),
      (List.replicate k 's' ++ l).dropWhile (· = 's') =
        l.dropWhile (· = 's') := by
    intro l
    induction k with
    | zero => simp
    | succ k ih => simp [List.replicate_succ, List.dropWhile_cons, ih]
  have hds : ds.reverse.dropWhile (· = 's') = ds.reverse := by
    apply dropWhile_eq_self_of_none
    intro c hc
    have : c ∈ ds := List.mem_reverse.mp hc
    simpa using (isDigit_ne (hd c this)).1
  simp only [rstripS, List.reverse_append, List.reverse_replicate, hrep, hds,
    List.reverse_reverse]

/-- The underscore-aware digit scanner evaluates a pure digit string to its
base-10 value. -/
lemma pyDigitsTail_digits :
    ∀ (t : List Char) (acc : Nat), (∀ c ∈ t, c.isDigit = true) →
      pyDigitsTail acc t = some (t.foldl (fun a c => a * 10 + (c.toNat - 48)) acc)
  | [], _, _ => rfl
  | c :: t, acc, h => by
      have hc : c.isDigit = true := h c (by simp)
      have ih := pyDigitsTail_digits t (acc * 10 + (c.toNat - 48))
        (fun x hx => h x (by simp [hx]))
      have hu : c ≠ '_' := (isDigit_ne hc).2.1
      rw [pyDigitsTail.eq_def]
      simp [hu, hc, ih]

/-- `pyNat?` on a nonempty pure digit string. -/
lemma pyNat?_digits (ds : List Char) (hne : ds ≠ [])
    (hd : ∀ c ∈ ds, c.isDigit = true) : pyNat? ds = some (digitsVal ds) := by
  match ds with
  | c :: t =>
      have hc : c.isDigit = true := hd c (by simp)
      have := pyDigitsTail_digits t (c.toNat - 48)
        (fun x hx => hd x (by simp [hx]))
      simp [pyNat?, hc, this, digitsVal]

/-- `pyInt?` on a nonempty pure digit string. -/
lemma pyInt?_digits (ds : List Char) (hne : ds ≠ [])
    (hd : ∀ c ∈ ds, c.isDigit = true) :
    pyInt? ds = some (Int.ofNat (digitsVal ds)) := by
  have hnows : ∀ c ∈ ds, isPyWs c = false :=
    fun c hc => isDigit_not_ws (hd c hc)
  have h1 : ds.dropWhile isPyWs = ds := dropWhile_eq_self_of_none hnows
  have h2 : ds.reverse.dropWhile isPyWs = ds.reverse :=
    dropWhile_eq_self_of_none
      (fun c hc => hnows c (List.mem_reverse.mp hc))
  match ds with
  | c :: t =>
      have hc : c.isDigit = true := hd c (by simp)
      have hcore := pyNat?_digits (c :: t) hne hd
      simp only [pyInt?, h1, h2, List.reverse_reverse]
      simp [(isDigit_ne hc).2.2.1, (isDigit_ne hc).2.2.2, hcore]

/-- C10 counterexample: `_parse_timeout` applied to `"+5"` — a value that is
not a digit string with trailing `s`s — returns `5`, not `None` as the
claim requires (Python's `int()` accepts a leading sign). -/
theorem c10_timeout_counterexample :
    parse_timeout (some "+5") = some 5 ∧ ¬ TimeoutDigitForm "+5" := by
  refine ⟨by decide, ?_⟩
  rintro ⟨ds, k, hne, hdig, heq⟩
  match ds, heq with
  | c :: t, heq =>
      have hc2 : '+' = c := by
        simpa using congrArg List.head? heq
      subst hc2
      exact absurd (hdig '+' (by simp)) (by decide)

/-- C10 (amended): `_parse_timeout` never raises (it is a total function
into `Option`); a falsy value (`None` or `""`) gives `None`; a digit string
with zero or more trailing `'s'` gives its numeric value; and any value
whose trailing-`'s'`-stripped form Python's `int()` rejects gives `None`
(e.g. `"5x"`).  However, any value `int()` accepts after stripping —
optionally signed, whitespace-padded, underscore-grouped — parses to that
integer (e.g. `"+5"`), rather than `None` as the original claim stated. -/
theorem c10_timeout_parsing (s : String) :
    parse_timeout none = none ∧
    parse_timeout (some "") = none ∧
    (∀ ds k, ds ≠ [] → (∀ c ∈ ds, c.isDigit = true) →
      parse_timeout (some (String.mk (ds ++ List.replicate k 's'))) =
        some (Int.ofNat (digitsVal ds))) ∧
    (s ≠ "" → parse_timeout (some s) = pyInt? (rstripS s.data)) ∧
    parse_timeout (some "5x") = none ∧
    parse_timeout (some "+5") = some 5 := by
  refine ⟨rfl, rfl, ?_, ?_, by decide, by decide⟩
  · intro ds k hne hd
    have htr : pyTruthy (some (String.mk (ds ++ List.replicate k 's'))) =
        true := by
      simp only [pyTruthy, ne_eq, decide_eq_true_eq]
      intro h
      have : ds ++ List.replicate k 's' = [] := by
        simpa [String.ext_iff] using h
      exact hne (List.append_eq_nil.mp this).1
    simp only [parse_timeout, htr, Bool.not_true, Bool.false_eq_true,
      if_false, Option.getD_some]
    show pyInt? (rstripS (ds ++ List.replicate k 's')) = _
    rw [rstripS_digits ds k hne hd]
    exact pyInt?_digits ds hne hd
  · intro hs
    have htr : pyTruthy (some s) = true := by simp [pyTruthy, hs]
    simp [parse_timeout, htr]

/-- Witness for C10 (amended): `"42s"` is the digit string `42` with one
trailing `s` and parses to 42. -/
theorem c10_timeout_parsing_witness :
    parse_timeout (some "42s") = some 42 := by
  have h := (c10_timeout_parsing "42s").2.2.1 ['4', '2'] 1 (by decide)
    (by decide)
  simpa using h

/-! #### Semantic analyzer lemmas -/

/-- `semantic_check` is the bind-chain of the four validations and
`build_dag`. -/
lemma semantic_check_def (w : Workflow) :
    semantic_check w =
      (check_duplicates w.steps >>= fun _ =>
        check_missing_dependencies w.steps >>= fun _ =>
          detect_cycle w.steps >>= fun _ =>
            check_banned_commands w.steps >>= fun _ => build_dag w.steps) :=
  rfl

lemma ebind_ok {α : Type} (f : Unit → Except SemanticError α) :
    ((Except.ok () : Except SemanticError Unit) >>= f) = f () := rfl

lemma ebind_err {α : Type} (e : SemanticError)
    (f : Unit → Except SemanticError α) :
    ((Except.error e : Except SemanticError Unit) >>= f) = .error e := rfl

/-- The duplicate check succeeds exactly on name lists that are
duplicate-free and disjoint from the accumulator. -/
lemma check_duplicates_aux_ok :
    ∀ (names : List String) (steps : List Step),
      check_duplicates_aux names steps = .ok () ↔
        ((steps.map (·.name)).Nodup ∧ ∀ s ∈ steps, s.name ∉ names)
  | names, [] => by simp [check_duplicates_aux]
  | names, s :: rest => by
      by_cases h : s.name ∈ names
      · simp only [check_duplicates_aux, if_pos h]
        constructor
        · intro he; exact absurd he (by simp)
        · rintro ⟨-, hall⟩; exact absurd h (hall s (by simp))
      · simp only [check_duplicates_aux, if_neg h]
        rw [check_duplicates_aux_ok (s.name :: names) rest]
        constructor
        · rintro ⟨hnd, hall⟩
          refine ⟨?_, ?_⟩
          · simp only [List.map_cons, List.nodup_cons]
            refine ⟨?_, hnd⟩
            intro hmem
            obtain ⟨r, hr, he⟩ := List.mem_map.mp hmem
            have := hall r hr
            simp only [List.mem_cons, not_or] at this
            exact this.1 he
          · intro x hx
            rcases List.mem_cons.mp hx with rfl | hx'
            · exact h
            · have := hall x hx'
              simp only [List.mem_cons, not_or] at this
              exact this.2
        · rintro ⟨hnd, hall⟩
          simp only [List.map_cons, List.nodup_cons] at hnd
          refine ⟨hnd.2, ?_⟩
          intro x hx
          simp only [List.mem_cons, not_or]
          refine ⟨?_, hall x (by simp [hx])⟩
          intro he
          exact hnd.1 (List.mem_map.mpr ⟨x, hx, he⟩)

/-- The duplicate check only ever raises a duplicate-name error. -/
lemma check_duplicates_aux_err :
    ∀ (names : List String) (steps : List Step) (e : SemanticError),
      check_duplicates_aux names steps = .error e →
        ∃ n, e = .duplicateStep n
  | _, [], _, h => by simp [check_duplicates_aux] at h
  | names, s :: rest, e, h => by
      by_cases hm : s.name ∈ names
      · simp only [check_duplicates_aux, if_pos hm, Except.error.injEq] at h
        exact ⟨s.name, h.symm⟩
      · simp only [check_duplicates_aux, if_neg hm] at h
        exact check_duplicates_aux_err _ rest e h

lemma check_duplicates_ok (steps : List Step) :
    check_duplicates steps = .ok () ↔ (stepNames steps).Nodup := by
  rw [check_duplicates, check_duplicates_aux_ok, stepNames]
  simp

/-- The missing-dependency check succeeds exactly when every dependency of
every step is a declared name. -/
lemma check_missing_deps_aux_ok (names : List String) :
    ∀ steps : List Step,
      check_missing_deps_aux names steps = .ok () ↔
        ∀ s ∈ steps, ∀ d ∈ s.depends_on, d ∈ names
  | [] => by simp [check_missing_deps_aux]
  | s :: rest => by
      cases hf : s.depends_on.find? (fun d => ¬ names.contains d) with
      | some d =>
          simp only [check_missing_deps_aux, hf]
          constructor
          · intro he; exact absurd he (by simp)
          · intro hall
            have hd : d ∈ s.depends_on := List.mem_of_find?_eq_some hf
            have hp := List.find?_some hf
            simp only [decide_not, Bool.not_eq_eq_eq_not, Bool.not_true,
              decide_eq_false_iff_not] at hp
            exact absurd (hall s (by simp) d hd)
              (by simpa [List.elem_iff] using hp)
      | none =>
          simp only [check_missing_deps_aux, hf]
          rw [check_missing_deps_aux_ok names rest]
          constructor
          · intro hall
            intro x hx d hd
            rcases List.mem_cons.mp hx with rfl | hx'
            · have := List.find?_eq_none.mp hf d hd
              simpa [List.elem_iff] using this
            · exact hall x hx' d hd
          · intro hall x hx d hd
            exact hall x (by simp [hx]) d hd

lemma check_missing_deps_aux_err (names : List String) :
    ∀ (steps : List Step) (e : SemanticError),
      check_missing_deps_aux names steps = .error e →
        ∃ n d, e = .missingDep n d
  | [], _, h => by simp [check_missing_deps_aux] at h
  | s :: rest, e, h => by
      cases hf : s.depends_on.find? (fun d => ¬ names.contains d) with
      | some d =>
          simp only [check_missing_deps_aux, hf, Except.error.injEq] at h
          exact ⟨s.name, d, h.symm⟩
      | none =>
          simp only [check_missing_deps_aux, hf] at h
          exact check_missing_deps_aux_err names rest e h

lemma check_missing_dependencies_ok (steps : List Step) :
    check_missing_dependencies steps = .ok () ↔
      ∀ s ∈ steps, ∀ d ∈ s.depends_on, d ∈ stepNames steps := by
  rw [check_missing_dependencies, stepNames]
  exact check_missing_deps_aux_ok (steps.map (·.name)) steps

/-- A command matching some banned pattern makes `firstBanned` fire. -/
lemma firstBanned_isSome (cmd : String) (i : Nat)
    (h : matchesBanned i cmd = true) : firstBanned cmd ≠ none := by
  intro hn
  have hlt : i < BANNED_PATTERNS.length := by
    by_contra hge
    have hnone : BANNED_PATTERNS[i]? = none := getElem?_neg _ i hge
    simp [matchesBanned, hnone] at h
  have := List.find?_eq_none.mp hn i (List.mem_range.mpr hlt)
  exact this h

/-- The banned-command check raises a banned-pattern error whenever some
step with a truthy command matches some banned pattern. -/
lemma check_banned_commands_err :
    ∀ steps : List Step,
      (∃ s ∈ steps, pyTruthy s.run = true ∧
        ∃ i, matchesBanned i (s.run.getD "") = true) →
      ∃ n j, check_banned_commands steps = .error (.bannedPattern n j)
  | [], h => by simp at h
  | s :: rest, h => by
      by_cases ht : pyTruthy s.run = true
      · cases hf : firstBanned (s.run.getD "") with
        | some j =>
            refine ⟨s.name, j, ?_⟩
            simp [check_banned_commands, ht, hf]
        | none =>
            obtain ⟨x, hx, hxt, i, hxi⟩ := h
            rcases List.mem_cons.mp hx with rfl | hx'
            · exact absurd hf (firstBanned_isSome _ i hxi)
            · obtain ⟨n, j, hr⟩ := check_banned_commands_err rest
                ⟨x, hx', hxt, i, hxi⟩
              refine ⟨n, j, ?_⟩
              simpa [check_banned_commands, ht, hf] using hr
      · obtain ⟨x, hx, hxt, i, hxi⟩ := h
        rcases List.mem_cons.mp hx with rfl | hx'
        · exact absurd hxt ht
        · obtain ⟨n, j, hr⟩ := check_banned_commands_err rest
            ⟨x, hx', hxt, i, hxi⟩
          refine ⟨n, j, ?_⟩
          simpa [check_banned_commands, ht] using hr

lemma check_banned_commands_err_shape :
    ∀ (steps : List Step) (e : SemanticError),
      check_banned_commands steps = .error e →
        ∃ n j, e = .bannedPattern n j
  | [], _, h => by simp [check_banned_commands] at h
  | s :: rest, e, h => by
      by_cases ht : pyTruthy s.run = true
      · cases hf : firstBanned (s.run.getD "") with
        | some j =>
            simp only [check_banned_commands, ht, if_true, hf,
              Except.error.injEq] at h
            exact ⟨s.name, j, h.symm⟩
        | none =>
            simp only [check_banned_commands, ht, if_true, hf] at h
            exact check_banned_commands_err_shape rest e h
      · simp only [check_banned_commands, ht] at h
        simp only [Bool.not_eq_true] at ht
        rw [if_neg (by simp [ht])] at h
        exact check_banned_commands_err_shape rest e h

/-- C6: for every workflow that passes the structural checks (duplicates,
unresolved dependencies, cycle), if some step has a truthy command matching
one of the banned patterns, `semantic_check` rejects with a banned-pattern
error; in particular the workflow whose only step runs `rm -rf /tmp/x` is
rejected with the banned-pattern error for that step and the `rm\s+-rf`
pattern (index 0). -/
theorem c6_banned_patterns (w : Workflow)
    (hdup : check_duplicates w.steps = .ok ())
    (hmiss : check_missing_dependencies w.steps = .ok ())
    (hcyc : detect_cycle w.steps = .ok ())
    (hban : ∃ s ∈ w.steps, pyTruthy s.run = true ∧
      ∃ i, matchesBanned i (s.run.getD "") = true) :
    (∃ n j, semantic_check w = .error (.bannedPattern n j)) ∧
    semantic_check wfBanned = .error (.bannedPattern "a" 0) := by
  constructor
  · obtain ⟨n, j, hb⟩ := check_banned_commands_err w.steps hban
    refine ⟨n, j, ?_⟩
    rw [semantic_check_def, hdup, ebind_ok, hmiss, ebind_ok, hcyc, ebind_ok,
      hb, ebind_err]
  · rfl

/-- Witness for C6: the `rm -rf /tmp/x` workflow satisfies all the
structural checks and triggers the banned-pattern rejection. -/
theorem c6_banned_patterns_witness :
    ∃ n j, semantic_check wfBanned = .error (.bannedPattern n j) :=
  (c6_banned_patterns wfBanned rfl rfl rfl
    ⟨{ name := "a", run := some "rm -rf /tmp/x" }, by simp [wfBanned],
      by decide, 0, by decide⟩).1

/-- C9: the semantic analyzer performs its validations in the fixed order
duplicates → unresolved dependencies → cycle → banned commands and rejects
with exactly the first applicable error (each kind is characterized); in
particular, a workflow with both a duplicate step name and a banned command
reports the duplicate-name error. -/
theorem c9_validation_order (w : Workflow) :
    (∀ e, check_duplicates w.steps = .error e →
      semantic_check w = .error e ∧ ∃ n, e = .duplicateStep n) ∧
    (check_duplicates w.steps = .ok () →
      ∀ e, check_missing_dependencies w.steps = .error e →
        semantic_check w = .error e ∧ ∃ n d, e = .missingDep n d) ∧
    (check_duplicates w.steps = .ok () →
      check_missing_dependencies w.steps = .ok () →
      ∀ e, detect_cycle w.steps = .error e →
        semantic_check w = .error e ∧ e = .cycleDetected) ∧
    (check_duplicates w.steps = .ok () →
      check_missing_dependencies w.steps = .ok () →
      detect_cycle w.steps = .ok () →
      ∀ e, check_banned_commands w.steps = .error e →
        semantic_check w = .error e ∧ ∃ n j, e = .bannedPattern n j) ∧
    (check_duplicates w.steps = .ok () ↔ (stepNames w.steps).Nodup) ∧
    (check_missing_dependencies w.steps = .ok () ↔
      ∀ s ∈ w.steps, ∀ d ∈ s.depends_on, d ∈ stepNames w.steps) ∧
    semantic_check wfDupAndBanned = .error (.duplicateStep "a") := by
  refine ⟨?_, ?_, ?_, ?_, check_duplicates_ok w.steps,
    check_missing_dependencies_ok w.steps, rfl⟩
  · intro e he
    exact ⟨by rw [semantic_check_def, he, ebind_err],
      check_duplicates_aux_err [] w.steps e he⟩
  · intro hd e he
    exact ⟨by rw [semantic_check_def, hd, ebind_ok, he, ebind_err],
      check_missing_deps_aux_err _ w.steps e he⟩
  · intro hd hm e he
    refine ⟨by rw [semantic_check_def, hd, ebind_ok, hm, ebind_ok, he,
      ebind_err], ?_⟩
    by_cases hc : (kahn_order w.steps).length = w.steps.length
    · rw [detect_cycle, if_pos hc] at he
      exact absurd he (by simp)
    · rw [detect_cycle, if_neg hc] at he
      exact (Except.error.injEq _ _).mp he.symm
  · intro hd hm hc e he
    exact ⟨by rw [semantic_check_def, hd, ebind_ok, hm, ebind_ok, hc,
      ebind_ok, he, ebind_err],
      check_banned_commands_err_shape w.steps e he⟩

/-- Witness for C9: on the duplicate-plus-banned workflow the analyzer
reports the duplicate-name error for `a`. -/
theorem c9_validation_order_witness :
    semantic_check wfDupAndBanned = .error (.duplicateStep "a") ∧
    ∃ n, (SemanticError.duplicateStep "a") = .duplicateStep n := by
  have h := (c9_validation_order wfDupAndBanned).1 (.duplicateStep "a") rfl
  exact ⟨h.1, h.2⟩

/-! #### Bytecode round-trip lemmas -/

lemma filterMap_asStr_comp (l : List String) :
    l.filterMap (asStr? ∘ Json.str) = l := by
  induction l with
  | nil => rfl
  | cons s t ih => simp [asStr?, ih, Function.comp]

lemma filterMap_asStr (l : List String) :
    (l.map Json.str).filterMap asStr? = l := by
  rw [List.filterMap_map]
  exact filterMap_asStr_comp l

lemma filterMap_asObj_comp (l : List (List (String × Json))) :
    l.filterMap (asObj? ∘ Json.obj) = l := by
  induction l with
  | nil => rfl
  | cons s t ih => simp [asObj?, ih, Function.comp]

lemma filterMap_asObj (l : List (List (String × Json))) :
    (l.map Json.obj).filterMap asObj? = l := by
  rw [List.filterMap_map]
  exact filterMap_asObj_comp l

/-- Decoding inverts the IR encoding of a single step. -/
lemma decode_instr (s : Step) : decode_step (instr_of_step s) = s := by
  obtain ⟨name, run, timeout, retries, dep, onerr⟩ := s
  cases run <;> cases timeout <;> cases onerr <;>
    simp [decode_step, instr_of_step, rawOptStr, pyGet, asStr?, optStrJson,
      filterMap_asStr, filterMap_asStr_comp]

lemma steps_raw_emit (nm : String) (ir : List (List (String × Json)))
    (nts : List Json) :
    steps_raw (emit_bytecode nm (ir.map Json.obj) nts) = ir := by
  by_cases h : nts.isEmpty <;>
    simp [steps_raw, emit_bytecode, jget, pyGet, h, filterMap_asObj,
      filterMap_asObj_comp]

/-- The scheduler's decoded step list equals the analyzer's. -/
lemma step_objs_emit (w : Workflow) (nts : List Json) :
    step_objs (emit_bytecode w.name (workflow_to_ir w) nts) = w.steps := by
  have hir : workflow_to_ir w = (w.steps.map instr_of_step).map Json.obj := by
    simp [workflow_to_ir, List.map_map, Function.comp]
  rw [step_objs, hir, steps_raw_emit]
  induction w.steps with
  | nil => rfl
  | cons s t ih => simp [decode_instr, ih]

/-- Decoding inverts the CLI's encoding of a notifier. -/
lemma decode_notify_dict (n : Notify) :
    (asObj? (notify_dict n)).map decode_notify = some n := by
  obtain ⟨name, email, subject, body⟩ := n
  cases email <;> cases subject <;> cases body <;>
    simp [notify_dict, asObj?, decode_notify, rawOptStr, pyGet, asStr?,
      optStrJson]

lemma notifies_roundtrip (w : Workflow) (ir : List Json) :
    notifies_of_bytecode
        (emit_bytecode w.name ir (w.notifies.map notify_dict)) =
      w.notifies := by
  cases hw : w.notifies with
  | nil => simp [notifies_of_bytecode, emit_bytecode, jget, pyGet]
  | cons n t =>
      have hne : ((w.notifies.map notify_dict).isEmpty) = false := by
        simp [hw]
      rw [hw] at hne
      simp only [notifies_of_bytecode, emit_bytecode, hw, List.map_cons,
        hne, Bool.false_eq_true, if_false, jget, pyGet]
      have hfind : ∀ l : List Notify,
          ((l.map notify_dict).filterMap asObj?).map decode_notify = l := by
        intro l
        induction l with
        | nil => rfl
        | cons x xs ih =>
            have hx := decode_notify_dict x
            cases ho : asObj? (notify_dict x) with
            | none => rw [ho] at hx; exact absurd hx (by simp)
            | some fields =>
                rw [ho] at hx
                simp at hx
                rw [List.filterMap_map] at ih
                simp only [List.map_cons, List.filterMap_cons, ho]
                simp [hx, ih]
      simpa using hfind (n :: t)

lemma mem_pyDedupAux :
    ∀ (l : List String) (seen : List String) (x : String),
      x ∈ pyDedupAux seen l ↔ (x ∈ l ∧ x ∉ seen)
  | [], seen, x => by simp [pyDedupAux]
  | y :: ys, seen, x => by
      by_cases hy : y ∈ seen
      · rw [pyDedupAux, if_pos hy, mem_pyDedupAux ys seen x]
        constructor
        · rintro ⟨h1, h2⟩; exact ⟨by simp [h1], h2⟩
        · rintro ⟨h1, h2⟩
          rcases List.mem_cons.mp h1 with rfl | h1'
          · exact absurd hy h2
          · exact ⟨h1', h2⟩
      · rw [pyDedupAux, if_neg hy]
        by_cases hxy : x = y
        · subst hxy; simp [hy]
        · simp only [List.mem_cons, hxy, false_or]
          rw [mem_pyDedupAux ys (y :: seen) x]
          simp [hxy]

lemma mem_pyDedup (l : List String) (x : String) :
    x ∈ pyDedup l ↔ x ∈ l := by
  rw [pyDedup, mem_pyDedupAux]
  simp

/-- The edge loop of `_build_graph` never raises when every dependency is a
known step name. -/
lemma vm_add_edges_go_ok (names : List String) (name : String) :
    ∀ (deps : List String) (adj : List (String × List String))
      (ind : List (String × Int)), (∀ d ∈ deps, d ∈ names) →
      ∃ pr, vm_add_edges.go names name deps adj ind = .ok pr
  | [], adj, ind, _ => ⟨(adj, ind), rfl⟩
  | d :: deps, adj, ind, h => by
      have hd : d ∈ names := h d (by simp)
      obtain ⟨pr, hpr⟩ := vm_add_edges_go_ok names name deps
        (adj.map (fun p => if p.1 = d then (p.1, p.2 ++ [name]) else p))
        (ind.map (fun p => if p.1 = name then (p.1, p.2 + 1) else p))
        (fun x hx => h x (by simp [hx]))
      exact ⟨pr, by simp [vm_add_edges.go, hd, hpr]⟩

lemma vm_add_edges_ok (names : List String) :
    ∀ (objs : List Step) (adj : List (String × List String))
      (ind : List (String × Int)),
      (∀ s ∈ objs, ∀ d ∈ s.depends_on, d ∈ names) →
      ∃ pr, vm_add_edges names objs adj ind = .ok pr
  | [], adj, ind, _ => ⟨(adj, ind), rfl⟩
  | s :: rest, adj, ind, h => by
      obtain ⟨pr1, hpr1⟩ := vm_add_edges_go_ok names s.name s.depends_on adj
        ind (h s (by simp))
      obtain ⟨pr2, hpr2⟩ := vm_add_edges_ok names rest pr1.1 pr1.2
        (fun x hx => h x (by simp [hx]))
      exact ⟨pr2, by simp [vm_add_edges, hpr1, hpr2]⟩

/-- `_build_graph` succeeds on a step list whose dependencies all resolve. -/
lemma vm_build_graph_ok (objs : List Step)
    (h : ∀ s ∈ objs, ∀ d ∈ s.depends_on, d ∈ objs.map (·.name)) :
    ∃ g, vm_build_graph objs = .ok g := by
  apply vm_add_edges_ok
  intro s hs d hd
  exact (mem_pyDedup _ d).mpr (h s hs d hd)

/-- A workflow accepted by the analyzer passed the missing-dependency
check. -/
lemma semantic_check_ok_missing (w : Workflow) (ord : List String)
    (h : semantic_check w = .ok ord) :
    check_missing_dependencies w.steps = .ok () := by
  rw [semantic_check_def] at h
  cases hd : check_duplicates w.steps with
  | error e => rw [hd, ebind_err] at h; exact absurd h (by simp)
  | ok u =>
      cases u
      rw [hd, ebind_ok] at h
      cases hm : check_missing_dependencies w.steps with
      | error e => rw [hm, ebind_err] at h; exact absurd h (by simp)
      | ok u => cases u; rfl

/-- C7: for every workflow that passes semantic analysis, emitting bytecode
from the analyzer's instruction list and loading it back through the
scheduler yields the identical step list and notifier list, and the derived
dependency graph (adjacency and unresolved counters) is identical and is
successfully built. -/
theorem c7_bytecode_roundtrip (w : Workflow) (ord : List String)
    (hsem : semantic_check w = .ok ord) :
    step_objs (emit_bytecode w.name (workflow_to_ir w)
        (w.notifies.map notify_dict)) = w.steps ∧
    notifies_of_bytecode (emit_bytecode w.name (workflow_to_ir w)
        (w.notifies.map notify_dict)) = w.notifies ∧
    vm_build_graph (step_objs (emit_bytecode w.name (workflow_to_ir w)
        (w.notifies.map notify_dict))) = vm_build_graph w.steps ∧
    ∃ g, vm_build_graph w.steps = .ok g := by
  have hsteps := step_objs_emit w (w.notifies.map notify_dict)
  refine ⟨hsteps, notifies_roundtrip w _, by rw [hsteps], ?_⟩
  apply vm_build_graph_ok
  have := (check_missing_dependencies_ok w.steps).mp
    (semantic_check_ok_missing w ord hsem)
  simpa [stepNames] using this

/-- Witness for C7: the three-step workflow `wfRound` round-trips. -/
theorem c7_bytecode_roundtrip_witness :
    step_objs (emit_bytecode wfRound.name (workflow_to_ir wfRound)
        (wfRound.notifies.map notify_dict)) = wfRound.steps ∧
    ∃ g, vm_build_graph wfRound.steps = .ok g := by
  have h := c7_bytecode_roundtrip wfRound ["a", "b", "c"] (by rfl)
  exact ⟨h.1, h.2.2.2⟩

/-! #### Scheduler branch lemmas (claims C1, C3, C5) -/

/-- The submission filter `if nr in self.completed or nr in self.failed`
only depends on the union of the two terminal sets: moving the just-finished
step from the completed set to the failed set leaves submission
unchanged. -/
lemma submit_new_union (c f : List String) (x : String)
    (newly run : List String) :
    submit_new (c ++ [x]) f newly run = submit_new c (f ++ [x]) newly run := by
  unfold submit_new
  apply List.foldl_ext
  intro b nr _
  refine if_congr ?_ rfl rfl
  simp only [List.mem_append, List.mem_singleton]
  tauto

/-- C1: when a step completes in failure and its record carries a truthy
`on_error` handler, the scheduler marks it failed, appends exactly the
dispatch line for that handler and step to the notifications log, and
treats the successors identically to the success branch — the resulting
unresolved counters, running set and status events are those of the success
branch, with only the terminal sets and the log differing; the loop
continues (no abort).  Concretely, in the handled-failure scenario `a`
(fails, `on_error=notify_ops`) ← `b` (succeeds): `a` ends failed, `b` was
unlocked, ran and succeeded, the log holds the one `notify_ops` line naming
`a`, and the run drains normally with the abort flag unset (the returned
boolean is `false` only because a step failed). -/
theorem c1_handled_failure (cfg : VMCfg) (st : VMState) (step : String)
    (s : Step) (hs : pyGet (name_to_raw cfg.step_objs) step = some s)
    (hoe : pyTruthy s.on_error = true) :
    (handle_completion cfg st step false =
      match handle_completion cfg st step true with
      | .next stS => .next { stS with
                             completed := st.completed,
                             failed := st.failed ++ [step],
                             log := st.log ++
                               [emit_notify (mk_notify_map cfg.notifies)
                                 cfg.timestamp (s.on_error.getD "")
                                 (some step)] }
      | .halt b stH => .halt b stH) ∧
    vm_execute cfgHandled =
      (false,
       { completed := ["b"], failed := ["a"], running := [],
         adj := [("a", ["b"]), ("b", [])], indeg := [("a", 0), ("b", 0)],
         statuses := [("a", "queued"), ("a", "running"), ("a", "failed"),
                      ("b", "queued"), ("b", "running"), ("b", "succeeded")],
         log := ["[T] NOTIFY notify_ops -> email: ops@example.com " ++
                   "subject: None body: step a failed\n"],
         cancelled := false }) := by
  constructor
  · simp only [handle_completion, hs, Option.some_bind, hoe, if_true,
      Bool.false_eq_true, if_false]
    rw [submit_new_union]
  · rfl

/-- Witness for C1: the general branch equation applied in the
handled-failure scenario, at the scheduler state just before `a`'s failure
is consumed, together with the end-to-end facts for the scenario. -/
theorem c1_handled_failure_witness :
    (vm_execute cfgHandled).2.failed = ["a"] ∧
    (vm_execute cfgHandled).2.completed = ["b"] ∧
    (vm_execute cfgHandled).2.cancelled = false ∧
    (vm_execute cfgHandled).2.log.length = 1 := by
  have h := c1_handled_failure cfgHandled
    { completed := [], failed := [], running := [],
      adj := [("a", ["b"]), ("b", [])], indeg := [("a", 0), ("b", 1)],
      statuses := [], log := [], cancelled := false }
    "a" { name := "a", run := some "false", on_error := some "notify_ops" }
    rfl rfl
  rw [h.2]
  exact ⟨rfl, rfl, rfl, rfl⟩

/-- C3: when a step completes in failure with no truthy `on_error` handler,
the scheduler marks it failed, sets the abort flag, clears the outstanding
futures and returns `False` immediately — successors are not decremented
and nothing further is submitted.  Concretely, in the unhandled-failure
scenario `a` (fails) ← `b`: `a` ends failed, the abort flag is set, the
running set is drained, and `b` never receives any status event — in
particular it never enters RUNNING. -/
theorem c3_unhandled_failure_aborts (cfg : VMCfg) (st : VMState)
    (step : String)
    (hoe : pyTruthy ((pyGet (name_to_raw cfg.step_objs) step).bind
      (·.on_error)) = false) :
    handle_completion cfg st step false =
      .halt false { st with
                    failed := st.failed ++ [step],
                    cancelled := true, running := [] } ∧
    vm_execute cfgUnhandled =
      (false,
       { completed := [], failed := ["a"], running := [],
         adj := [("a", ["b"]), ("b", [])], indeg := [("a", 0), ("b", 1)],
         statuses := [("a", "queued"), ("a", "running"), ("a", "failed")],
         log := [], cancelled := true }) ∧
    ("b", "running") ∉ (vm_execute cfgUnhandled).2.statuses ∧
    ("b", "queued") ∉ (vm_execute cfgUnhandled).2.statuses := by
  refine ⟨?_, rfl, by decide, by decide⟩
  simp only [handle_completion, Bool.false_eq_true, if_false, hoe]

/-- Witness for C3: the abort equation applied in the unhandled-failure
scenario at the state just before `a`'s failure is consumed. -/
theorem c3_unhandled_failure_aborts_witness :
    (vm_execute cfgUnhandled).2.cancelled = true ∧
    (vm_execute cfgUnhandled).2.running = [] ∧
    ("b", "running") ∉ (vm_execute cfgUnhandled).2.statuses := by
  have h := c3_unhandled_failure_aborts cfgUnhandled
    { completed := [], failed := [], running := [],
      adj := [("a", ["b"]), ("b", [])], indeg := [("a", 0), ("b", 1)],
      statuses := [], log := [], cancelled := false }
    "a" rfl
  refine ⟨?_, ?_, h.2.2.1⟩ <;> rw [h.2.1]

/-- C5 counterexample: an aborted run (unhandled failure, abort flag set)
and a cancelled run (external cancel event set) return the same value
`False` from `execute`, so an observer of the return value cannot tell
which of the two occurred — the code returns a plain boolean, not three
distinguishable results. -/
theorem c5_result_counterexample :
    (vm_execute cfgAborted).1 = false ∧
    (vm_execute cfgAborted).2.cancelled = true ∧
    cfgCancelled.cancel_event = true ∧
    (vm_execute cfgCancelled).1 = false ∧
    (vm_execute cfgAborted).1 = (vm_execute cfgCancelled).1 :=
  ⟨rfl, rfl, rfl, rfl, rfl⟩

/-- C5 (amended): `execute` returns a single boolean — `True` exactly when
the run drains with no failed step (the normal exit of the loop), and
`False` for aborted, cancelled and handled-failure runs alike; the return
value distinguishes success from non-success only. -/
theorem c5_result_boolean (cfg : VMCfg) (fuel : Nat) (st : VMState) :
    (st.running = [] → vm_loop cfg (fuel + 1) st = (st.failed.isEmpty, st)) ∧
    (vm_execute cfgLinear).1 = true ∧
    (vm_execute cfgAborted).1 = false ∧
    (vm_execute cfgCancelled).1 = false := by
  refine ⟨?_, rfl, rfl, rfl⟩
  intro h
  rw [vm_loop, h]

/-- Witness for C5 (amended): the normal-exit equation evaluated on an
empty-running state. -/
theorem c5_result_boolean_witness :
    vm_loop cfgLinear 1
        { completed := ["a", "b"], failed := [], running := [], adj := [],
          indeg := [], statuses := [], log := [], cancelled := false } =
      (true,
       { completed := ["a", "b"], failed := [], running := [], adj := [],
         indeg := [], statuses := [], log := [], cancelled := false }) :=
  (c5_result_boolean cfgLinear 0
    { completed := ["a", "b"], failed := [], running := [], adj := [],
      indeg := [], statuses := [], log := [], cancelled := false }).1 rfl

/-! #### Canonical-order lemmas (claim C2) -/

lemma listLeChars_refl : ∀ l : List Char, listLeChars l l = true
  | [] => rfl
  | c :: t => by simp [listLeChars, listLeChars_refl t]

lemma listLeChars_total :
    ∀ a b : List Char, listLeChars a b = true ∨ listLeChars b a = true
  | [], _ => Or.inl rfl
  | _ :: _, [] => Or.inr rfl
  | a :: as, b :: bs => by
      rcases Nat.lt_trichotomy a.toNat b.toNat with h | h | h
      · left; simp [listLeChars, h]
      · rcases listLeChars_total as bs with ih | ih
        · left; simp [listLeChars, h, ih]
        · right; simp [listLeChars, h.symm, ih]
      · right; simp [listLeChars, h]

lemma listLeChars_trans :
    ∀ a b c : List Char, listLeChars a b = true → listLeChars b c = true →
      listLeChars a c = true
  | [], _, _, _, _ => rfl
  | _ :: _, [], _, hab, _ => by simp [listLeChars] at hab
  | _ :: _, _ :: _, [], _, hbc => by simp [listLeChars] at hbc
  | a :: as, b :: bs, c :: cs, hab, hbc => by
      simp only [listLeChars] at hab hbc ⊢
      by_cases h1 : a.toNat < b.toNat <;> by_cases h2 : b.toNat < c.toNat
      · simp [Nat.lt_trans h1 h2]
      · simp only [h2, if_false] at hbc
        by_cases h3 : b.toNat = c.toNat
        · simp [h3 ▸ h1]
        · simp [h3] at hbc
      · simp only [h1, if_false] at hab
        by_cases h3 : a.toNat = b.toNat
        · simp [h3 ▸ h2]
        · simp [h3] at hab
      · simp only [h1, if_false] at hab
        simp only [h2, if_false] at hbc
        by_cases h3 : a.toNat = b.toNat
        · by_cases h4 : b.toNat = c.toNat
          · have hac : a.toNat = c.toNat := h3.trans h4
            have hnlt : ¬ a.toNat < c.toNat := by omega
            simp only [h3, if_true] at hab
            simp only [h4, if_true] at hbc
            simp [hnlt, hac, listLeChars_trans as bs cs hab hbc]
          · simp [h4] at hbc
        · simp [h3] at hab

lemma pyStrLe_refl (a : String) : pyStrLe a a = true :=
  listLeChars_refl a.data

lemma pyStrLe_total (a b : String) :
    pyStrLe a b = true ∨ pyStrLe b a = true :=
  listLeChars_total a.data b.data

lemma pyStrLe_trans {a b c : String} (h1 : pyStrLe a b = true)
    (h2 : pyStrLe b c = true) : pyStrLe a c = true :=
  listLeChars_trans a.data b.data c.data h1 h2

instance : IsTotal String (fun a b => pyStrLe a b = true) :=
  ⟨pyStrLe_total⟩

instance : IsTrans String (fun a b => pyStrLe a b = true) :=
  ⟨fun _ _ _ => pyStrLe_trans⟩

/-- A nonempty list has an element minimizing any `Nat`-valued image. -/
lemma exists_min_image {α : Type} :
    ∀ (l : List α) (f : α → Nat), l ≠ [] →
      ∃ a ∈ l, ∀ b ∈ l, f a ≤ f b
  | [], _, h => absurd rfl h
  | [a], _, _ => ⟨a, by simp, by simp⟩
  | a :: b :: t, f, _ => by
      obtain ⟨m, hm, hmin⟩ := exists_min_image (b :: t) f (by simp)
      by_cases h : f a ≤ f m
      · exact ⟨a, by simp, fun x hx => by
          rcases List.mem_cons.mp hx with rfl | hx'
          · exact le_rfl
          · exact Nat.le_trans h (hmin x hx')⟩
      · exact ⟨m, by simp [hm], fun x hx => by
          rcases List.mem_cons.mp hx with rfl | hx'
          · exact Nat.le_of_lt (Nat.lt_of_not_le h)
          · exact hmin x hx'⟩

/-- Two duplicate-free lists with the same membership have the same
length. -/
lemma length_eq_of_nodup_mem_iff {l₁ l₂ : List String} (h₁ : l₁.Nodup)
    (h₂ : l₂.Nodup) (h : ∀ x, x ∈ l₁ ↔ x ∈ l₂) : l₁.length = l₂.length :=
  ((List.perm_ext_iff_of_nodup h₁ h₂).mpr h).length_eq

lemma nodup_pyDedupAux :
    ∀ (l seen : List String), (pyDedupAux seen l).Nodup
  | [], _ => by simp [pyDedupAux]
  | y :: ys, seen => by
      by_cases hy : y ∈ seen
      · rw [pyDedupAux, if_pos hy]; exact nodup_pyDedupAux ys seen
      · rw [pyDedupAux, if_neg hy]
        refine List.nodup_cons.mpr ⟨?_, nodup_pyDedupAux ys (y :: seen)⟩
        intro hmem
        exact ((mem_pyDedupAux ys (y :: seen) y).mp hmem).2 (by simp)

lemma nodup_pyDedup (l : List String) : (pyDedup l).Nodup :=
  nodup_pyDedupAux l []

lemma pyDedup_eq_nil_iff (l : List String) : pyDedup l = [] ↔ l = [] := by
  cases l with
  | nil => simp [pyDedup, pyDedupAux]
  | cons x xs => simp [pyDedup, pyDedupAux]

/-- A Python dict built from bindings with duplicate-free keys is those
bindings. -/
lemma dictInsert_append {α : Type} (k : String) (v : α) :
    ∀ acc : List (String × α), k ∉ acc.map (·.1) →
      dictInsert k v acc = acc ++ [(k, v)]
  | [], _ => rfl
  | (k', v') :: rest, h => by
      have hk : k' ≠ k := by
        intro e; exact h (by simp [e])
      rw [dictInsert, if_neg hk, dictInsert_append k v rest
        (fun hm => h (by simp [hm]))]
      simp

lemma pyDict_aux {α : Type} :
    ∀ (l acc : List (String × α)), (l.map (·.1)).Nodup →
      (∀ k ∈ l.map (·.1), k ∉ acc.map (·.1)) →
      l.foldl (fun d p => dictInsert p.1 p.2 d) acc = acc ++ l
  | [], acc, _, _ => by simp
  | (k, v) :: rest, acc, hnd, hdis => by
      have hnd' : k ∉ rest.map (·.1) ∧ (rest.map (·.1)).Nodup := by
        simpa [List.nodup_cons] using hnd
      simp only [List.foldl_cons]
      rw [dictInsert_append k v acc (hdis k (by simp))]
      rw [pyDict_aux rest (acc ++ [(k, v)]) hnd'.2 ?_]
      · simp
      · intro k' hk'
        simp only [List.map_append, List.mem_append, List.map_cons,
          List.map_nil, List.mem_singleton, not_or]
        refine ⟨fun hin => hdis k' (by simp [hk']) hin, ?_⟩
        intro he
        exact hnd'.1 (he ▸ hk')

lemma pyDict_eq_self {α : Type} (l : List (String × α))
    (h : (l.map (·.1)).Nodup) : pyDict l = l := by
  have := pyDict_aux l [] h (by simp)
  simpa [pyDict] using this

/-- With duplicate-free names, `depsOf` recovers each step's declared
dependency list. -/
lemma depsOf_eq :
    ∀ (steps : List Step), (stepNames steps).Nodup →
      ∀ s ∈ steps, depsOf steps s.name = s.depends_on
  | [], _, s, hs => absurd hs (by simp)
  | t :: rest, hnd, s, hs => by
      have hnd' : t.name ∉ stepNames rest ∧ (stepNames rest).Nodup := by
        simpa [stepNames, List.nodup_cons] using hnd
      rcases List.mem_cons.mp hs with rfl | hs'
      · rw [depsOf, List.find?_cons_of_pos _ (by simp)]
        rfl
      · have hne : t.name ≠ s.name := by
          intro e
          exact hnd'.1 (e ▸ (by simp [stepNames]; exact ⟨s, hs', rfl⟩))
        rw [depsOf, List.find?_cons_of_neg _ (by simp [hne])]
        exact depsOf_eq rest hnd'.2 s hs'

/-- Every declared name has a declaring step. -/
lemma exists_step_of_mem_names {steps : List Step} {n : String}
    (h : n ∈ stepNames steps) : ∃ s ∈ steps, s.name = n := by
  simpa [stepNames] using h

/-- With duplicate-free names, the Kahn `graph` dict is the per-step list
of deduplicated dependency sets. -/
lemma kahn_graph_eq (steps : List Step) (hnd : (stepNames steps).Nodup) :
    kahn_graph steps = graphRem steps [] := by
  rw [kahn_graph, pyDict_eq_self]
  · rw [graphRem]
    apply List.map_congr_left
    intro s _
    simp
  · simpa [stepNames, List.map_map, Function.comp] using hnd

/-- One `kahn_step` emission, described against a graph whose indegree dict
is the sizes of its dependency sets: every set loses `n`, the indegrees
follow, and exactly the nodes whose set becomes empty by losing `n` are
appended to the queue, in key order. -/
lemma kahn_step_spec (n : String) :
    ∀ (g : List (String × List String)) (q : List String),
      kahn_step n g (kahn_indeg g) q =
        (g.map (fun p => if n ∈ p.2 then (p.1, p.2.erase n) else p),
         kahn_indeg
           (g.map (fun p => if n ∈ p.2 then (p.1, p.2.erase n) else p)),
         q ++ (g.filter
           (fun p => n ∈ p.2 ∧ (p.2.erase n).isEmpty)).map (·.1))
  | [], q => by simp [kahn_step, kahn_indeg]
  | (m, deps) :: g', q => by
      by_cases hm : n ∈ deps
      · have hpos : 0 < deps.length := List.length_pos.mpr
          (List.ne_nil_of_mem hm)

        have hlen : (deps.erase n).length = deps.length - 1 :=
          List.length_erase_of_mem hm
        have hd' : ((deps.length : Int) - 1) =
            ((deps.erase n).length : Int) := by
          rw [hlen]; omega
        by_cases hz : (deps.erase n).isEmpty
        · have hone : (deps.length : Int) - 1 = 0 := by
            rw [hd']
            simp [List.isEmpty_iff.mp hz]
          show kahn_step n ((m, deps) :: g')
              ((m, (deps.length : Int)) :: kahn_indeg g') q = _
          rw [kahn_step, if_pos hm]
          simp only [hone, if_true]
          rw [kahn_step_spec n g' (q ++ [m])]
          have he : deps.erase n = [] := List.isEmpty_iff.mp hz
          have hde : deps = [n] := by
            cases deps with
            | nil => simp at hm
            | cons x rest =>
                by_cases hx : x = n
                · subst hx
                  have : rest = [] := by
                    simpa [List.erase_cons_head] using he
                  rw [this]
                · rw [List.erase_cons] at he
                  simp [hx] at he
          simp [kahn_indeg, hm, hz, he, hde, List.append_assoc]
        · have hne : (deps.length : Int) - 1 ≠ 0 := by
            rw [hd']
            have : deps.erase n ≠ [] := fun e => hz (by simp [e])
            have := List.length_pos.mpr this
            omega
          show kahn_step n ((m, deps) :: g')
              ((m, (deps.length : Int)) :: kahn_indeg g') q = _
          rw [kahn_step, if_pos hm]
          simp only [if_neg hne]
          rw [kahn_step_spec n g' q]
          simp only [List.map_cons, if_pos hm, kahn_indeg, List.filter_cons]
          simp [hd', hm, hz]
      · show kahn_step n ((m, deps) :: g')
            ((m, (deps.length : Int)) :: kahn_indeg g') q = _
        rw [kahn_step, if_neg hm]
        rw [kahn_step_spec n g' q]
        simp only [List.map_cons, if_neg hm, kahn_indeg, List.filter_cons]
        simp [hm]

/-- Removing an emitted name from every remaining dependency set advances
the remaining-graph description by one emission. -/
lemma graphRem_step (steps : List Step) (n : String) (done : List String) :
    (graphRem steps done).map
        (fun p => if n ∈ p.2 then (p.1, p.2.erase n) else p) =
      graphRem steps (done ++ [n]) := by
  rw [graphRem, graphRem, List.map_map]
  apply List.map_congr_left
  intro s _
  simp only [Function.comp]
  set L := pyDedup s.depends_on with hL
  have hLnd : L.Nodup := nodup_pyDedup _
  by_cases hm : n ∈ L.filter (fun d => !done.contains d)
  · rw [if_pos hm]
    have hfn : (L.filter (fun d => !done.contains d)).Nodup :=
      hLnd.filter _
    rw [List.Nodup.erase_eq_filter hfn, List.filter_filter]
    refine congrArg (fun l => (s.name, l)) ?_
    apply List.filter_congr
    intro d _
    by_cases hdn : d = n
    · subst hdn
      simp [List.elem_iff]
    · simp [List.elem_iff, hdn]
  · rw [if_neg hm]
    refine congrArg (fun l => (s.name, l)) ?_
    apply List.filter_congr
    intro d hd
    by_cases hdc : d ∈ done
    · have c1 : done.contains d = true := List.elem_iff.mpr hdc
      have c2 : (done ++ [n]).contains d = true :=
        List.elem_iff.mpr (by simp [hdc])
      rw [c1, c2]
    · have hdn : d ≠ n := by
        intro e
        subst e
        refine hm (List.mem_filter.mpr ⟨hd, ?_⟩)
        simp only [Bool.not_eq_true']
        by_contra hc
        exact hdc (List.elem_iff.mp (by simpa using hc))
      have c1 : done.contains d = false := by
        simp only [← Bool.not_eq_true]
        intro hc
        exact hdc (List.elem_iff.mp hc)
      have c2 : (done ++ [n]).contains d = false := by
        simp only [← Bool.not_eq_true]
        intro hc
        have hmem := List.elem_iff.mp hc
        simp only [List.mem_append, List.mem_singleton] at hmem
        rcases hmem with h | h
        · exact hdc h
        · exact hdn h
      rw [c1, c2]

/-- Membership in the ready set, semantically. -/
lemma mem_readyNames {steps : List Step} {done : List String} {n : String} :
    n ∈ readyNames steps done ↔
      n ∈ stepNames steps ∧ n ∉ done ∧
        ∀ d ∈ depsOf steps n, d ∈ done := by
  simp only [readyNames, List.mem_filter, Bool.and_eq_true,
    Bool.not_eq_true', List.all_eq_true]
  constructor
  · rintro ⟨h1, h2, h3⟩
    refine ⟨h1, ?_, fun d hd => List.elem_iff.mp (h3 d hd)⟩
    intro hc
    have hct : done.contains n = true := List.elem_iff.mpr hc
    rw [hct] at h2
    exact absurd h2 (by simp)
  · rintro ⟨h1, h2, h3⟩
    refine ⟨h1, ?_, fun d hd => List.elem_iff.mpr (h3 d hd)⟩
    simp only [← Bool.not_eq_true]
    intro hc
    exact h2 (List.elem_iff.mp hc)

lemma ordSpec_nil (steps : List Step) : OrdSpec steps [] :=
  fun _ hi => absurd hi (by simp)

lemma ordSpec_mem_names {steps : List Step} {done : List String}
    (h : OrdSpec steps done) : ∀ x ∈ done, x ∈ stepNames steps := by
  intro x hx
  obtain ⟨i, hi⟩ := List.mem_iff_get.mp hx
  subst hi
  exact (mem_readyNames.mp (h i i.2).1).1

lemma ordSpec_nodup {steps : List Step} {done : List String}
    (h : OrdSpec steps done) : done.Nodup := by
  rw [List.Nodup, List.pairwise_iff_getElem]
  intro i j hi hj hij
  have hjr := (mem_readyNames.mp (h j hj).1).2.1
  simp only [List.get_eq_getElem] at hjr
  intro he
  apply hjr
  rw [← he, List.mem_take_iff_getElem]
  exact ⟨i, by simp [Nat.lt_min]; omega, rfl⟩

lemma ordSpec_deps_sub {steps : List Step} {done : List String}
    (h : OrdSpec steps done) :
    ∀ x ∈ done, ∀ d ∈ depsOf steps x, d ∈ done := by
  intro x hx d hd
  obtain ⟨i, hi⟩ := List.mem_iff_get.mp hx
  subst hi
  have := (mem_readyNames.mp (h i i.2).1).2.2 d hd
  exact List.take_subset _ _ this

/-- Extending a canonical order with the least ready node preserves the
specification. -/
lemma ordSpec_append {steps : List Step} {done : List String} {n : String}
    (h : OrdSpec steps done) (hn : n ∈ readyNames steps done)
    (hmin : ∀ m ∈ readyNames steps done, pyStrLe n m = true) :
    OrdSpec steps (done ++ [n]) := by
  intro i hi
  simp only [List.length_append, List.length_singleton] at hi
  by_cases hlt : i < done.length
  · have hg : (done ++ [n]).get ⟨i, by simp; omega⟩ =
        done.get ⟨i, hlt⟩ := by
      simp only [List.get_eq_getElem]
      exact List.getElem_append_left hlt
    have ht : (done ++ [n]).take i = done.take i :=
      List.take_append_of_le_length (Nat.le_of_lt hlt)
    rw [hg, ht]
    exact h i hlt
  · have hieq : i = done.length := by omega
    subst hieq
    have hg : (done ++ [n]).get ⟨done.length, by simp⟩ = n := by
      simp
    have ht : (done ++ [n]).take done.length = done := List.take_left _ _
    rw [hg, ht]
    exact ⟨hn, hmin⟩

/-- A duplicate-free list contained in another duplicate-free list missing
one of its members is strictly shorter. -/
lemma length_lt_of_nodup_ssub {done names : List String}
    (hd : done.Nodup) (hn : names.Nodup) (hsub : ∀ x ∈ done, x ∈ names)
    {z : String} (hz : z ∈ names) (hzd : z ∉ done) :
    done.length < names.length := by
  have h1 : done.toFinset.card = done.length := List.toFinset_card_of_nodup hd
  have h2 : names.toFinset.card = names.length :=
    List.toFinset_card_of_nodup hn
  rw [← h1, ← h2]
  apply Finset.card_lt_card
  constructor
  · intro x hx
    rw [List.mem_toFinset] at hx ⊢
    exact hsub x hx
  · intro hc
    have := hc (List.mem_toFinset.mpr hz)
    exact hzd (List.mem_toFinset.mp this)

lemma contains_eq_false_iff (l : List String) (x : String) :
    l.contains x = false ↔ x ∉ l := by
  rw [← Bool.not_eq_true]
  exact ⟨fun h hc => h (List.elem_iff.mpr hc),
    fun h hc => h (List.elem_iff.mp hc)⟩

/-- A duplicate-free list whose `erase` is empty and which contains the
erased element is that singleton. -/
lemma eq_singleton_of_erase_nil {l : List String} {n : String}
    (hm : n ∈ l) (he : l.erase n = []) : l = [n] := by
  cases l with
  | nil => simp at hm
  | cons x rest =>
      by_cases hx : x = n
      · subst hx
        have : rest = [] := by simpa [List.erase_cons_head] using he
        rw [this]
      · rw [List.erase_cons] at he
        simp [hx] at he

/-- The nodes appended to the queue by emitting `n` are exactly the
not-yet-emitted nodes that become ready precisely through `n`'s
emission. -/
lemma newly_mem_iff (steps : List Step) (hnd : (stepNames steps).Nodup)
    {done : List String} {n : String} (hord : OrdSpec steps done)
    (hnq : n ∈ readyNames steps done) (x : String) :
    (x ∈ ((graphRem steps done).filter
        (fun p => n ∈ p.2 ∧ (p.2.erase n).isEmpty)).map (·.1)) ↔
      (x ∈ stepNames steps ∧ x ∉ done ++ [n] ∧
        (∀ d ∈ depsOf steps x, d ∈ done ++ [n]) ∧
        ¬ (∀ d ∈ depsOf steps x, d ∈ done)) := by
  obtain ⟨hn_names, hn_done, hn_deps⟩ := mem_readyNames.mp hnq
  constructor
  · intro hx
    simp only [List.mem_map, List.mem_filter, graphRem] at hx
    obtain ⟨a, ⟨⟨s, hs, hsf⟩, hcond⟩, hname⟩ := hx
    subst hsf
    rw [decide_eq_true_eq] at hcond
    obtain ⟨hcond1, hcond2e⟩ := hcond
    simp only at hname hcond1 hcond2e
    have hcond2 : (List.filter (fun d => !done.contains d)
        (pyDedup s.depends_on)).erase n = [] := List.isEmpty_iff.mp hcond2e
    subst hname
    have hnin : n ∈ s.depends_on ∧ n ∉ done := by
      have h1 := List.mem_filter.mp hcond1
      refine ⟨(mem_pyDedup _ _).mp h1.1, ?_⟩
      have := h1.2
      simp only [Bool.not_eq_true'] at this
      exact (contains_eq_false_iff done n).mp this
    have hdx : depsOf steps s.name = s.depends_on := depsOf_eq steps hnd s hs
    have hsingle : List.filter (fun d => !done.contains d)
        (pyDedup s.depends_on) = [n] :=
      eq_singleton_of_erase_nil hcond1 hcond2
    refine ⟨by simp only [stepNames, List.mem_map]; exact ⟨s, hs, rfl⟩,
      ?_, ?_, ?_⟩
    · simp only [List.mem_append, List.mem_singleton, not_or]
      constructor
      · intro hc
        have := ordSpec_deps_sub hord s.name hc n (hdx ▸ hnin.1)
        exact hnin.2 this
      · intro hc
        apply hnin.2
        apply hn_deps n
        have h2 : depsOf steps n = s.depends_on := by rw [← hc]; exact hdx
        rw [h2]
        exact hnin.1
    · intro d hd
      rw [hdx] at hd
      by_cases hdd : d ∈ done
      · simp [hdd]
      · have hdrem : d ∈ List.filter (fun d => !done.contains d)
            (pyDedup s.depends_on) := by
          rw [List.mem_filter]
          refine ⟨(mem_pyDedup _ _).mpr hd, ?_⟩
          simp only [Bool.not_eq_true']
          exact (contains_eq_false_iff done d).mpr hdd
        rw [hsingle] at hdrem
        simp only [List.mem_singleton] at hdrem
        simp [hdrem]
    · intro hall
      exact hnin.2 (hall n (hdx ▸ hnin.1))
  · rintro ⟨hxn, hxd, hxdeps, hxnot⟩
    obtain ⟨s, hs, hsname⟩ := exists_step_of_mem_names hxn
    have hdx : depsOf steps s.name = s.depends_on := depsOf_eq steps hnd s hs
    rw [← hsname] at hxd hxdeps hxnot
    obtain ⟨d0, hd0, hd0nd⟩ : ∃ d ∈ depsOf steps s.name, d ∉ done := by
      by_contra hc
      push_neg at hc
      exact hxnot hc
    have hd0n : d0 = n := by
      have := hxdeps d0 hd0
      simp only [List.mem_append, List.mem_singleton] at this
      rcases this with h | h
      · exact absurd h hd0nd
      · exact h
    rw [hd0n] at hd0 hd0nd
    rw [hdx] at hd0
    have hnrem : n ∈ List.filter (fun d => !done.contains d)
        (pyDedup s.depends_on) := by
      rw [List.mem_filter]
      refine ⟨(mem_pyDedup _ _).mpr hd0, ?_⟩
      simp only [Bool.not_eq_true']
      exact (contains_eq_false_iff done n).mpr hd0nd
    have herase : (List.filter (fun d => !done.contains d)
        (pyDedup s.depends_on)).erase n = [] := by
      rw [List.eq_nil_iff_forall_not_mem]
      intro y hy
      have hynd := ((nodup_pyDedup s.depends_on).filter _).mem_erase_iff.mp hy
      have hyrem := List.mem_filter.mp hynd.2
      have hyd : y ∈ s.depends_on := (mem_pyDedup _ _).mp hyrem.1
      have hydone : y ∉ done := by
        have := hyrem.2
        simp only [Bool.not_eq_true'] at this
        exact (contains_eq_false_iff done y).mp this
      have := hxdeps y (hdx ▸ hyd)
      simp only [List.mem_append, List.mem_singleton] at this
      rcases this with h | h
      · exact hydone h
      · exact hynd.1 h
    simp only [List.mem_map, List.mem_filter, graphRem]
    refine ⟨(s.name, List.filter (fun d => !done.contains d)
      (pyDedup s.depends_on)), ⟨⟨s, hs, rfl⟩, ?_⟩, hsname⟩
    rw [decide_eq_true_eq]
    exact ⟨hnrem, by rw [herase]; rfl⟩

/-- The Kahn loop invariant: started from an emitted prefix satisfying the
canonical-order specification, with the remaining graph, its indegrees and
the sorted duplicate-free queue of exactly the ready nodes, the loop emits
a canonical order enumerating all step names. -/
lemma kahn_loop_spec (steps : List Step) (hnd : (stepNames steps).Nodup)
    (hres : ∀ s ∈ steps, ∀ d ∈ s.depends_on, d ∈ stepNames steps)
    (L : List String) (hL : IsTopoOrder steps L) :
    ∀ (fuel : Nat) (done q : List String),
      OrdSpec steps done →
      (∀ x, x ∈ q ↔ x ∈ readyNames steps done) →
      q.Nodup →
      q.Pairwise (fun a b => pyStrLe a b = true) →
      (stepNames steps).length - done.length < fuel →
      OrdSpec steps (kahn_loop fuel (graphRem steps done)
          (kahn_indeg (graphRem steps done)) q done) ∧
      ∀ x, x ∈ kahn_loop fuel (graphRem steps done)
          (kahn_indeg (graphRem steps done)) q done ↔
            x ∈ stepNames steps := by
  intro fuel
  induction fuel with
  | zero =>
      intro done q _ _ _ _ hf
      exact absurd hf (by omega)
  | succ f ih =>
      intro done q hord hq hqnd hqsort hf
      cases q with
      | nil =>
          simp only [kahn_loop]
          refine ⟨hord, fun x =>
            ⟨fun hx => ordSpec_mem_names hord x hx, ?_⟩⟩
          intro hx
          by_contra hxd
          have hxS : x ∈ (stepNames steps).filter
              (fun y => !done.contains y) := by
            rw [List.mem_filter]
            refine ⟨hx, ?_⟩
            simp only [Bool.not_eq_true']
            exact (contains_eq_false_iff done x).mpr hxd
          obtain ⟨z, hzS, hzmin⟩ := exists_min_image _
            (fun y => L.indexOf y) (List.ne_nil_of_mem hxS)
          have hzf := List.mem_filter.mp hzS
          have hzn : z ∈ stepNames steps := hzf.1
          have hzd : z ∉ done := by
            have := hzf.2
            simp only [Bool.not_eq_true'] at this
            exact (contains_eq_false_iff done z).mp this
          obtain ⟨s, hs, hsname⟩ := exists_step_of_mem_names hzn
          have hdeps : ∀ d ∈ depsOf steps z, d ∈ done := by
            intro d hd
            rw [← hsname, depsOf_eq steps hnd s hs] at hd
            by_contra hdd
            have hdn : d ∈ stepNames steps := hres s hs d hd
            have hdS : d ∈ (stepNames steps).filter
                (fun y => !done.contains y) := by
              rw [List.mem_filter]
              refine ⟨hdn, ?_⟩
              simp only [Bool.not_eq_true']
              exact (contains_eq_false_iff done d).mpr hdd
            have hle := hzmin d hdS
            have htopo := hL.2.2 s hs d hd
            rw [hsname] at htopo
            omega
          have hzready : z ∈ readyNames steps done :=
            mem_readyNames.mpr ⟨hzn, hzd, hdeps⟩
          have := (hq z).mpr hzready
          simp at this
      | cons n rest =>
          have hnq : n ∈ readyNames steps done := (hq n).mp (by simp)
          have hrest := List.nodup_cons.mp hqnd
          have hpw := List.pairwise_cons.mp hqsort
          have hmin : ∀ m ∈ readyNames steps done,
              pyStrLe n m = true := by
            intro m hm
            have hmq : m ∈ n :: rest := (hq m).mpr hm
            rcases List.mem_cons.mp hmq with rfl | hm'
            · exact pyStrLe_refl m
            · exact hpw.1 m hm'
          have hord' : OrdSpec steps (done ++ [n]) :=
            ordSpec_append hord hnq hmin
          have hdlt : done.length < (stepNames steps).length :=
            length_lt_of_nodup_ssub (ordSpec_nodup hord) hnd
              (ordSpec_mem_names hord) (mem_readyNames.mp hnq).1
              (mem_readyNames.mp hnq).2.1
          have hstep := kahn_step_spec n (graphRem steps done) rest
          simp only [kahn_loop, hstep]
          rw [graphRem_step steps n done]
          have hready' : ∀ x,
              x ∈ pySort (rest ++ ((graphRem steps done).filter
                (fun p => n ∈ p.2 ∧ (p.2.erase n).isEmpty)).map (·.1)) ↔
              x ∈ readyNames steps (done ++ [n]) := by
            intro x
            rw [pySort, List.mem_insertionSort, List.mem_append]
            constructor
            · rintro (hxr | hxnew)
              · have hxq : x ∈ readyNames steps done :=
                  (hq x).mp (by simp [hxr])
                obtain ⟨h1, h2, h3⟩ := mem_readyNames.mp hxq
                have hxn : x ≠ n := fun e => hrest.1 (e ▸ hxr)
                refine mem_readyNames.mpr ⟨h1, ?_, ?_⟩
                · simp only [List.mem_append, List.mem_singleton, not_or]
                  exact ⟨h2, hxn⟩
                · intro d hd
                  simp only [List.mem_append]
                  exact Or.inl (h3 d hd)
              · have hch := (newly_mem_iff steps hnd hord hnq x).mp hxnew
                exact mem_readyNames.mpr ⟨hch.1, hch.2.1, hch.2.2.1⟩
            · intro hxready
              obtain ⟨h1, h2, h3⟩ := mem_readyNames.mp hxready
              by_cases hsub : ∀ d ∈ depsOf steps x, d ∈ done
              · left
                have hxnd : x ∉ done := fun hc => h2 (by simp [hc])
                have hxq : x ∈ n :: rest :=
                  (hq x).mpr (mem_readyNames.mpr ⟨h1, hxnd, hsub⟩)
                rcases List.mem_cons.mp hxq with rfl | h
                · exact absurd (show x ∈ done ++ [x] by simp) h2
                · exact h
              · right
                exact (newly_mem_iff steps hnd hord hnq x).mpr
                  ⟨h1, h2, h3, hsub⟩
          have hnewly_nodup : (((graphRem steps done).filter
              (fun p => n ∈ p.2 ∧ (p.2.erase n).isEmpty)).map (·.1)).Nodup := by
            have hsub : (((graphRem steps done).filter
                (fun p => n ∈ p.2 ∧ (p.2.erase n).isEmpty)).map (·.1)).Sublist
                  ((graphRem steps done).map (·.1)) :=
              (List.filter_sublist _).map _
            have hkeys : (graphRem steps done).map (·.1) = stepNames steps := by
              simp [graphRem, stepNames, List.map_map, Function.comp]
            exact List.Nodup.sublist hsub (hkeys ▸ hnd)
          have hnodup' : (pySort (rest ++ ((graphRem steps done).filter
              (fun p => n ∈ p.2 ∧ (p.2.erase n).isEmpty)).map (·.1))).Nodup := by
            rw [pySort]
            refine (List.perm_insertionSort _ _).nodup_iff.mpr ?_
            rw [List.nodup_append]
            refine ⟨hrest.2, hnewly_nodup, ?_⟩
            intro x hxr hxnew
            have hxq : x ∈ readyNames steps done :=
              (hq x).mp (by simp [hxr])
            have hch := (newly_mem_iff steps hnd hord hnq x).mp hxnew
            exact hch.2.2.2 (mem_readyNames.mp hxq).2.2
          have hsort' : (pySort (rest ++ ((graphRem steps done).filter
              (fun p => n ∈ p.2 ∧ (p.2.erase n).isEmpty)).map (·.1))).Pairwise
                (fun a b => pyStrLe a b = true) :=
            List.sorted_insertionSort _ _
          have hf' : (stepNames steps).length - (done ++ [n]).length < f := by
            simp only [List.length_append, List.length_singleton]
            omega
          exact ih (done ++ [n]) _ hord' hready' hnodup' hsort' hf'

lemma indexOf_lt_of_mem_take {l : List String} {x : String} :
    ∀ {i : Nat}, x ∈ l.take i → l.indexOf x < i := by
  induction l with
  | nil => intro i h; simp at h
  | cons a t ih =>
      intro i h
      cases i with
      | zero => simp at h
      | succ j =>
          rw [List.take_succ_cons] at h
          rcases List.mem_cons.mp h with rfl | h'
          · simp
          · by_cases hxa : x = a
            · subst hxa; simp
            · rw [List.indexOf_cons_ne _ (fun e => hxa e.symm)]
              exact Nat.succ_lt_succ (ih h')

/-- C2: on a workflow with unique step names, fully resolved dependencies
and an acyclic dependency graph, `build_dag` returns a topological order of
the step names whose length equals the number of steps, and at each
position the emitted name is the lexicographically smallest among the nodes
whose unresolved-dependency count is zero (`OrdSpec`); the order is a
deterministic function of the input (the uniqueness conjunct). -/
theorem c2_canonical_order (steps : List Step)
    (hnd : (stepNames steps).Nodup)
    (hres : ∀ s ∈ steps, ∀ d ∈ s.depends_on, d ∈ stepNames steps)
    (hacyc : Acyclic steps) :
    ∃ ord, build_dag steps = .ok ord ∧ ord.length = steps.length ∧
      IsTopoOrder steps ord ∧ OrdSpec steps ord ∧
      ∀ ord', build_dag steps = .ok ord' → ord' = ord := by
  obtain ⟨L, hL⟩ := hacyc
  have hnames_len : (stepNames steps).length = steps.length := by
    simp [stepNames]
  -- the initial queue is exactly the ready set of the empty prefix
  have hq0 : ∀ x, x ∈ ((kahn_indeg (graphRem steps [])).filter
      (fun p => p.2 = 0)).map (·.1) ↔ x ∈ readyNames steps [] := by
    intro x
    simp only [kahn_indeg, graphRem, List.map_map, List.mem_map,
      List.mem_filter, Function.comp]
    constructor
    · rintro ⟨a, ⟨⟨s, hs, hsa⟩, hz⟩, hname⟩
      subst hsa
      rw [decide_eq_true_eq] at hz
      simp only at hname hz
      refine mem_readyNames.mpr ⟨?_, by simp, ?_⟩
      · rw [← hname]
        simp only [stepNames, List.mem_map]
        exact ⟨s, hs, rfl⟩
      · intro d hd
        exfalso
        rw [← hname, depsOf_eq steps hnd s hs] at hd
        have hlen0 : ((pyDedup s.depends_on).filter
            (fun d => !List.contains [] d)).length = 0 := by
          exact_mod_cast hz
        have hnil : pyDedup s.depends_on = [] := by
          have hfe : (pyDedup s.depends_on).filter
              (fun d => !List.contains [] d) = pyDedup s.depends_on := by
            apply List.filter_eq_self.mpr
            intro a _
            rfl
          rw [hfe] at hlen0
          exact List.eq_nil_of_length_eq_zero hlen0
        rw [← mem_pyDedup] at hd
        rw [hnil] at hd
        simp at hd
    · intro hx
      obtain ⟨h1, _, h3⟩ := mem_readyNames.mp hx
      obtain ⟨s, hs, hsname⟩ := exists_step_of_mem_names h1
      have hdeps : s.depends_on = [] := by
        rw [← hsname, depsOf_eq steps hnd s hs] at h3
        cases hde : s.depends_on with
        | nil => rfl
        | cons d t =>
            have := h3 d (by rw [hde]; simp)
            simp at this
      refine ⟨_, ⟨⟨s, hs, rfl⟩, ?_⟩, ?_⟩
      · simp [hdeps, pyDedup, pyDedupAux]
      · simpa using hsname
  have hq0nd : (((kahn_indeg (graphRem steps [])).filter
      (fun p => p.2 = 0)).map (·.1)).Nodup := by
    have hsub : (((kahn_indeg (graphRem steps [])).filter
        (fun p => p.2 = 0)).map (·.1)).Sublist
          ((kahn_indeg (graphRem steps [])).map (·.1)) :=
      (List.filter_sublist _).map _
    have hkeys : (kahn_indeg (graphRem steps [])).map (·.1) =
        stepNames steps := by
      simp [kahn_indeg, graphRem, stepNames, List.map_map, Function.comp]
    exact List.Nodup.sublist hsub (hkeys ▸ hnd)
  have hready0 : ∀ x, x ∈ pySort (((kahn_indeg (graphRem steps [])).filter
      (fun p => p.2 = 0)).map (·.1)) ↔ x ∈ readyNames steps [] := by
    intro x
    rw [pySort, List.mem_insertionSort]
    exact hq0 x
  have hspec := kahn_loop_spec steps hnd hres L hL (steps.length + 1) []
    (pySort (((kahn_indeg (graphRem steps [])).filter
      (fun p => p.2 = 0)).map (·.1)))
    (ordSpec_nil steps) hready0
    ((List.perm_insertionSort _ _).nodup_iff.mpr hq0nd)
    (List.sorted_insertionSort _ _)
    (by rw [hnames_len]; omega)
  have hko : kahn_order steps = kahn_loop (steps.length + 1)
      (graphRem steps []) (kahn_indeg (graphRem steps []))
      (pySort (((kahn_indeg (graphRem steps [])).filter
        (fun p => p.2 = 0)).map (·.1))) [] := by
    rw [kahn_order, kahn_graph_eq steps hnd]
  set ord := kahn_loop (steps.length + 1) (graphRem steps [])
    (kahn_indeg (graphRem steps []))
    (pySort (((kahn_indeg (graphRem steps [])).filter
      (fun p => p.2 = 0)).map (·.1))) [] with hord_def
  obtain ⟨hordspec, hmem⟩ := hspec
  have hordnd : ord.Nodup := ordSpec_nodup hordspec
  have hlen : ord.length = steps.length := by
    rw [← hnames_len]
    exact length_eq_of_nodup_mem_iff hordnd hnd hmem
  have hbd : build_dag steps = .ok ord := by
    rw [build_dag, hko]
    simp [hlen]
  have htopo : IsTopoOrder steps ord := by
    refine ⟨hordnd, hmem, ?_⟩
    intro s hs d hd
    have hsn : s.name ∈ ord := (hmem s.name).mpr
      (by simp only [stepNames, List.mem_map]; exact ⟨s, hs, rfl⟩)
    have hi : ord.indexOf s.name < ord.length :=
      List.indexOf_lt_length.mpr hsn
    have hget : ord.get ⟨ord.indexOf s.name, hi⟩ = s.name :=
      List.indexOf_get hi
    have hready := (hordspec (ord.indexOf s.name) hi).1
    rw [hget] at hready
    have hdeps := (mem_readyNames.mp hready).2.2
    rw [depsOf_eq steps hnd s hs] at hdeps
    exact indexOf_lt_of_mem_take (hdeps d hd)
  exact ⟨ord, hbd, hlen, htopo, hordspec, fun ord' hbd' => by
    rw [hbd] at hbd'
    exact (Except.ok.injEq _ _).mp hbd'.symm⟩

/-- Witness for C2: the three-step workflow of `wfRound` (names `c`, `a`,
`b` with `b` depending on `a`) has unique names, resolved dependencies and
an acyclic graph, and `build_dag` emits `["a", "b", "c"]`. -/
theorem c2_canonical_order_witness :
    build_dag wfRound.steps = .ok ["a", "b", "c"] := by
  obtain ⟨ord, hbd, -, -, -, huniq⟩ := c2_canonical_order wfRound.steps
    (by decide) (by decide)
    ⟨["a", "b", "c"], by decide, by
      intro n
      have hs : stepNames wfRound.steps = ["c", "a", "b"] := rfl
      rw [hs]
      simp only [List.mem_cons, List.not_mem_nil, or_false]
      tauto, by decide⟩
  have h := huniq ["a", "b", "c"] (by rfl)
  rw [← h] at hbd
  exact hbd

end Flowscript
